import Mathlib

/-!
# A priority scheduler for child processes (`holder2.c`)

Shallow embedding of the shell-plus-scheduler program and proofs about it.

Conventions of the embedding.

* C `int`, `pid_t` and `time_t` values are `Int`; loop counters and
  `process_count` (never negative in the program) are `Nat`.
* C strings are `List Char` (the characters before the terminating NUL).
* C `double` values are rationals.  The program only multiplies an `int` by
  `0.5`, `0.75`, `1.0`, `1.25` and by `1000`, divides an `int` by `1000.0`,
  subtracts and compares; on 32-bit `int` inputs the products are exact in
  IEEE double arithmetic, and the quotient `TSLICE / 1000.0` is used only
  through comparisons and one truncation.
* `process_table` is a total function from indices to entries: slot `i` of the
  C array is `process_table i`; only the slots below `MAX` exist in C and the
  program writes no other slot.
* Every interaction with the operating system is answered by an `Env`, a
  deterministic responder that sees the trace of calls made so far, and is
  appended to the trace `State.log`.
-/

namespace Sched

/-! ## Data model -/

/-- The constant `MAX` of the source: table capacity and buffer length. -/
abbrev MAX : Nat := 100

/-- A C string: the characters before the terminating NUL. -/
abbrev CStr := List Char

/-- The `process` struct: one entry of the job table.
`status` is 0 (running), 1 (ready) or 2 (terminated). -/
structure process where
  pid : Int
  status : Int
  process_name : CStr
  start_time : Int
  end_time : Int
  priority : Int
deriving DecidableEq, Inhabited

/-- The `hnode` struct without its `next` pointer: one history record. -/
structure hnode where
  command : CStr
  pid : Int
  start_time : Int
  end_time : Int
  status : Int
deriving DecidableEq, Inhabited

/-- The signals the program sends. -/
inductive Signal where
  | SIGKILL
  | SIGCONT
  | SIGSTOP
deriving DecidableEq, Inhabited

/-- One call into the operating system or the C library. -/
inductive Event where
  | fork
  | kill (pid : Int) (sig : Signal)
  | usleep (usec : Option Int)
  | waitpid (pid : Int)
  | time
  | malloc
deriving DecidableEq, Inhabited

/-- The environment: what each call returns, as a function of the trace of the
calls made before it.
* `fork`: the return value of `fork()` in the calling process;
* `time`: the return value of `time(NULL)`;
* `waitpid`: `some st` when `waitpid(pid, &status, WNOHANG)` returns `pid`
  and stores wait status `st`, `none` when it returns anything else;
* `malloc`: whether the allocation returns a non-null pointer;
* `kill`: the return value of `kill(pid, sig)`. -/
structure Env where
  fork : List Event → Int
  time : List Event → Int
  waitpid : List Event → Int → Option Nat
  malloc : List Event → Bool
  kill : List Event → Int → Signal → Int

/-- The global variables `process_table`, `process_count`, `history_head`
(as the list of records reachable from it), and the trace of calls so far. -/
structure State where
  process_table : Nat → process
  process_count : Nat
  history : List hnode
  log : List Event

/-! ## Numeric helpers -/

/-- Conversion of a `double` to an integer type: truncation toward zero. -/
def c_trunc (x : ℚ) : Int :=
  if 0 ≤ x then Int.floor x else Int.ceil x

/-- The cast `(int)x` of a `double`: defined only when the truncated value is
representable in a 32-bit `int`. -/
def double_to_int (x : ℚ) : Option Int :=
  if -(2 : Int) ^ 31 ≤ c_trunc x ∧ c_trunc x < (2 : Int) ^ 31 then some (c_trunc x) else none

/-- The library function `difftime(end, start)`. -/
def difftime (time1 time0 : Int) : ℚ := ((time1 - time0 : Int) : ℚ)

/-- The call `strncpy(dest, src, MAX - 1)` into a zero-terminated buffer of
`MAX` bytes: the first `MAX - 1` characters of `src`. -/
def strncpy_max (src : CStr) : CStr := src.take (MAX - 1)

/-- The macro `WIFEXITED(status)`: the low seven bits of the wait status are zero. -/
def WIFEXITED (status : Nat) : Bool := status % 128 == 0

/-- The macro `W_EXITCODE(ret, sig)`: the wait status of a child that called
`exit(ret)` (with `sig = 0`) or was killed by signal `sig`. -/
def W_EXITCODE (ret sig : Nat) : Nat := ret * 256 + sig

/-! ## The functions of `holder2.c` -/

/-- The function `get_e_slice`: the time slice of a priority, in milliseconds. -/
def get_e_slice (TSLICE : Int) (priority : Int) : ℚ :=
  if priority = 1 then 0.5 * (TSLICE : ℚ)
  else if priority = 2 then 0.75 * (TSLICE : ℚ)
  else if priority = 3 then 1.0 * (TSLICE : ℚ)
  else if priority = 4 then 1.25 * (TSLICE : ℚ)
  else (TSLICE : ℚ)

/-- The argument `(int)(e_slice * 1000)` that `scheduler` passes to `usleep`. -/
def usleep_arg (TSLICE : Int) (priority : Int) : Option Int :=
  double_to_int (get_e_slice TSLICE priority * 1000)

/-- The weight `f` of the specification: 0.5, 0.75, 1.0, 1.25 for priorities
1 to 4 and 1.0 for any other priority. -/
def spec_f (priority : Int) : ℚ :=
  if priority = 1 then 1 / 2
  else if priority = 2 then 3 / 4
  else if priority = 3 then 1
  else if priority = 4 then 5 / 4
  else 1

/-- The function `add_history`: append one record at the tail of the history
list, with the finish time raised so that at least `TSLICE / 1000.0` seconds
are charged.  When `malloc` returns null nothing is appended. -/
def add_history (env : Env) (TSLICE : Int) (s : State) (command : CStr)
    (pid start end_ status : Int) : State :=
  if env.malloc s.log then
    let actual_time : ℚ := difftime end_ start
    let c_time : ℚ :=
      if actual_time < (TSLICE : ℚ) / 1000 then (TSLICE : ℚ) / 1000 else actual_time
    let new_node : hnode :=
      { command := strncpy_max command, pid := pid, start_time := start,
        end_time := start + c_trunc c_time, status := status }
    { s with history := s.history ++ [new_node], log := s.log ++ [Event.malloc] }
  else
    { s with log := s.log ++ [Event.malloc] }

/-- What `display_history_details` prints for one record: the running index,
the command, the pid, the status label, and the two times passed to the
`%.2f` conversions. -/
structure HistoryLine where
  count : Int
  command : CStr
  pid : Int
  label : String
  c_time : ℚ
  w_time : ℚ

/-- The body of the `while (temp)` loop of `display_history_details`. -/
def display_node (TSLICE : Int) (count : Int) (temp : hnode) : HistoryLine :=
  let t_time : ℚ := difftime temp.end_time temp.start_time
  let c_time : ℚ := if t_time < (TSLICE : ℚ) / 1000 then (TSLICE : ℚ) / 1000 else t_time
  let w_time : ℚ := t_time - c_time
  let w_time : ℚ := if w_time < 0 then 0 else w_time
  { count := count, command := temp.command, pid := temp.pid,
    label := if temp.status = 0 then "Success" else "Failed",
    c_time := c_time, w_time := w_time }

/-- The `while (temp)` loop of `display_history_details`. -/
def display_loop (TSLICE : Int) : Int → List hnode → List HistoryLine
  | _, [] => []
  | count, temp :: next => display_node TSLICE count temp :: display_loop TSLICE (count + 1) next

/-- The function `display_history_details`: the lines printed, one per record. -/
def display_history_details (TSLICE : Int) (s : State) : List HistoryLine :=
  display_loop TSLICE 1 s.history

/-- The `for` loop of `remove_terminated_processes`; the first argument is
the number of iterations left, `process_count - i`. -/
def remove_loop : Nat → Nat → Nat → (Nat → process) → (Nat → process) × Nat
  | 0, _, new_count, t => (t, new_count)
  | k + 1, i, new_count, t =>
    if (t i).status ≠ 2 then
      remove_loop k (i + 1) (new_count + 1) (Function.update t new_count (t i))
    else
      remove_loop k (i + 1) new_count t

/-- The function `remove_terminated_processes`. -/
def remove_terminated_processes (s : State) : State :=
  let r := remove_loop s.process_count 0 0 s.process_table
  { s with process_table := r.1, process_count := r.2 }

/-- The inner `for (j = i + 1; j < process_count; j++)` loop of
`sort_by_priority`; the first argument is the number of iterations left,
`process_count - j`. -/
def sort_inner : Nat → Nat → Nat → (Nat → process) → (Nat → process)
  | 0, _, _, t => t
  | k + 1, i, j, t =>
    if (t i).priority < (t j).priority then
      sort_inner k i (j + 1) (Function.update (Function.update t i (t j)) j (t i))
    else
      sort_inner k i (j + 1) t

/-- The outer `for (i = 0; i < process_count - 1; i++)` loop of
`sort_by_priority`; the first argument is the number of iterations left,
`process_count - 1 - i`. -/
def sort_outer (process_count : Nat) : Nat → Nat → (Nat → process) → (Nat → process)
  | 0, _, t => t
  | k + 1, i, t => sort_outer process_count k (i + 1) (sort_inner (process_count - (i + 1)) i (i + 1) t)

/-- The function `sort_by_priority`. -/
def sort_by_priority (s : State) : State :=
  { s with process_table := sort_outer s.process_count (s.process_count - 1) 0 s.process_table }

/-- The function `submit_job`, in the process that called it.  In that process
`fork()` returns a negative value or the pid of the new child; the branch
`pid == 0` runs in the child only, never returns to the shell, and changes
nothing in the caller. -/
def submit_job (env : Env) (s : State) (command : CStr) (priority : Int) : State :=
  if s.process_count ≥ MAX then s
  else
    let pid := env.fork s.log
    let s1 : State := { s with log := s.log ++ [Event.fork] }
    if pid < 0 then s1
    else if pid = 0 then s1
    else
      let entry : process :=
        { s1.process_table s1.process_count with
          pid := pid, status := 1, process_name := strncpy_max command,
          start_time := env.time s1.log, priority := priority }
      { s1 with
        process_table := Function.update s1.process_table s1.process_count entry,
        process_count := s1.process_count + 1,
        log := s1.log ++ [Event.time] }

/-- The child branch of `submit_job` once the child has been resumed: when
`execvp` fails the child calls `exit(1)`, and the parent then observes the
wait status returned here; when `execvp` succeeds the target program decides. -/
def child_exec_failure_status : Nat := W_EXITCODE 1 0

/-- The body of the `if (process_table[i].status == 1)` block of `scheduler`:
resume entry `i`, sleep for its slice, then reap it or pause it. -/
def dispatch (env : Env) (TSLICE : Int) (s : State) (i : Nat) : State :=
  let p := s.process_table i
  let log1 := s.log ++ [Event.kill p.pid Signal.SIGCONT]
  let log2 := log1 ++ [Event.usleep (usleep_arg TSLICE p.priority)]
  match env.waitpid log2 p.pid with
  | some status =>
    let log3 := log2 ++ [Event.waitpid p.pid]
    let q : process := { p with status := 2, end_time := env.time log3 }
    add_history env TSLICE
      { s with process_table := Function.update s.process_table i q,
               log := log3 ++ [Event.time] }
      q.process_name q.pid q.start_time q.end_time (if WIFEXITED status then 0 else 1)
  | none =>
    { s with log := log2 ++ [Event.waitpid p.pid, Event.kill p.pid Signal.SIGSTOP] }

/-- The loop `for (i = 0; i < process_count && running_jobs < NCPU; i++)` of
`scheduler`; the first argument is the number of iterations left,
`process_count - i`. -/
def dispatch_loop (env : Env) (NCPU TSLICE : Int) : Nat → Nat → Nat → State → State
  | 0, _, _, s => s
  | k + 1, i, running_jobs, s =>
    if (running_jobs : Int) < NCPU then
      if (s.process_table i).status = 1 then
        dispatch_loop env NCPU TSLICE k (i + 1) (running_jobs + 1) (dispatch env TSLICE s i)
      else
        dispatch_loop env NCPU TSLICE k (i + 1) running_jobs s
    else s

/-- One iteration of the `while (process_count > 0)` loop of `scheduler`. -/
def scheduler_iteration (env : Env) (NCPU TSLICE : Int) (s : State) : State :=
  let s1 := sort_by_priority s
  let s2 := dispatch_loop env NCPU TSLICE s1.process_count 0 0 s1
  remove_terminated_processes s2

/-- The function `scheduler`, run for at most `fuel` iterations of its
`while` loop: `some s` when the loop exits in state `s`, `none` when the
loop is still running after `fuel` iterations. -/
def scheduler (env : Env) (NCPU TSLICE : Int) : Nat → State → Option State
  | 0, s => if s.process_count > 0 then none else some s
  | fuel + 1, s =>
    if s.process_count > 0 then
      scheduler env NCPU TSLICE fuel (scheduler_iteration env NCPU TSLICE s)
    else some s

/-- What `handle_sigint` does before the process ends: the state it leaves
(only the trace of calls can differ), the `Killed process` lines it prints
(name and pid), the history dump printed by `display_history_details`, and
the status passed to `exit`. -/
structure SigintResult where
  state : State
  killed : List (CStr × Int)
  dump : List HistoryLine
  exit_status : Int

/-- The `for` loop of `handle_sigint`; the first argument is the number of
iterations left, `process_count - i`.  The result of `kill` is not looked at. -/
def sigint_loop : Nat → Nat → State × List (CStr × Int) → State × List (CStr × Int)
  | 0, _, r => r
  | k + 1, i, (s, out) =>
    if (s.process_table i).status = 0 ∨ (s.process_table i).status = 1 then
      sigint_loop k (i + 1)
        ({ s with log := s.log ++ [Event.kill (s.process_table i).pid Signal.SIGKILL] },
         out ++ [((s.process_table i).process_name, (s.process_table i).pid)])
    else
      sigint_loop k (i + 1) (s, out)

/-- The function `handle_sigint`. -/
def handle_sigint (TSLICE : Int) (s : State) : SigintResult :=
  let r := sigint_loop s.process_count 0 (s, [])
  { state := r.1, killed := r.2, dump := display_history_details TSLICE r.1, exit_status := 0 }

/-- The library function `isdigit` on a character. -/
def isdigit (c : Char) : Bool := 48 ≤ c.toNat && c.toNat ≤ 57

/-- The library function `isspace` on a character. -/
def isspace (c : Char) : Bool :=
  c.toNat == 32 || (9 ≤ c.toNat && c.toNat ≤ 13)

/-- The digit-accumulating loop of `strtol` in base 10, before its range
check: the mathematical value of the run of digits read. -/
def atoi_digits : Int → CStr → Int
  | acc, [] => acc
  | acc, c :: cs => if isdigit c then atoi_digits (acc * 10 + ((c.toNat : Int) - 48)) cs else acc

/-- The library function `strtol(nptr, NULL, 10)` before its range check: skip
white space, read an optional sign and the run of decimal digits that
follows. -/
def strtol_value : CStr → Int
  | [] => 0
  | c :: cs =>
    if isspace c then strtol_value cs
    else if c = '-' then - atoi_digits 0 cs
    else if c = '+' then atoi_digits 0 cs
    else atoi_digits 0 (c :: cs)

/-- The range check of `strtol` for a 64-bit `long`: a value below `LONG_MIN`
or above `LONG_MAX` is replaced by that bound. -/
def long_saturate (v : Int) : Int :=
  if v < -9223372036854775808 then -9223372036854775808
  else if 9223372036854775807 < v then 9223372036854775807
  else v

/-- The conversion `(int)` of a `long`: its low 32 bits read as a signed
32-bit value. -/
def long_to_int (v : Int) : Int :=
  (v + 2147483648) % 4294967296 - 2147483648

/-- The library function `atoi`, which glibc defines as
`(int) strtol(nptr, NULL, 10)`: the value of the digit run when it fits an
`int`, otherwise that value saturated to a `long` and cut to 32 bits. -/
def atoi (nptr : CStr) : Int :=
  long_to_int (long_saturate (strtol_value nptr))

/-- The library function `strrchr(s, c)` for `c` not NUL: the index of the
last occurrence of `c` in `s`, if any. -/
def strrchr : CStr → Char → Option Nat
  | [], _ => none
  | x :: xs, c =>
    match strrchr xs c with
    | some k => some (k + 1)
    | none => if x = c then some 0 else none

/-- The `submit` branch of `simple_shell` up to the call of `submit_job`:
from `job = token + 7` compute the command and the priority passed on. -/
def parse_submit (job : CStr) : CStr × Int :=
  match strrchr job ' ' with
  | some space =>
    if isdigit (job.getD (space + 1) (Char.ofNat 0)) then
      (job.take space, atoi (job.drop (space + 1)))
    else (job, 1)
  | none => (job, 1)

/-- The `submit` branch of `simple_shell`: parse, then call `submit_job`. -/
def shell_submit (env : Env) (s : State) (job : CStr) : State :=
  submit_job env s (parse_submit job).1 (parse_submit job).2

/-- The argument handling of `main`: `none` when fewer than two arguments
follow the program name (usage error, exit status 1), otherwise the values
stored in `NCPU` and `TSLICE`. -/
def main_config (argv : List CStr) : Option (Int × Int) :=
  if argv.length < 3 then none
  else some (atoi (argv.getD 1 []), atoi (argv.getD 2 []))

/-! ## Drivers and example data -/

/-- A sequence of `submit_job` calls, one per (command, priority) pair. -/
def submit_all (env : Env) : State → List (CStr × Int) → State
  | s, [] => s
  | s, job :: jobs => submit_all env (submit_job env s job.1 job.2) jobs

/-- The value of a string of decimal digits, most significant digit first. -/
def digits_value (ds : List Char) : Int :=
  ds.foldl (fun acc c => acc * 10 + ((c.toNat : Int) - 48)) 0

/-- The environment used in the examples: `fork` returns fresh positive pids,
the clock is the length of the trace, every reaped child has exited with
code 0, allocation and signals succeed. -/
def env_ok : Env :=
  { fork := fun log => 100 + log.length
    time := fun log => log.length
    waitpid := fun _ _ => some 0
    malloc := fun _ => true
    kill := fun _ _ _ => 0 }

/-- An environment in which every reaped child is one whose `execvp` failed. -/
def env_exec_fails : Env :=
  { env_ok with waitpid := fun _ _ => some child_exec_failure_status }

/-- The state at program start: an all-zero table, no job, no history. -/
def state_init : State :=
  { process_table := fun _ => { pid := 0, status := 0, process_name := [], start_time := 0,
                                 end_time := 0, priority := 0 }
    process_count := 0
    history := []
    log := [] }

/-- A table with one ready job: pid 7, priority 3. -/
def state_one_job : State :=
  { state_init with
    process_table := fun _ => { pid := 7, status := 1, process_name := ['n', 'o'], start_time := 0,
                                 end_time := 0, priority := 3 }
    process_count := 1 }

/-! ## Views of the state used in the statements -/

/-- The entries `t i, t (i+1), ..., t (i+k-1)` of a table, as a list. -/
def seg (t : Nat → process) (i k : Nat) : List process := (List.range' i k).map t

/-- The jobs in the table: its first `process_count` entries. -/
def live (s : State) : List process := seg s.process_table 0 s.process_count

/-- The inner loop of `sort_by_priority` seen on lists: carry the entry held at
position `i` along the rest of the table, exchanging it with every entry of
strictly higher priority; the result is the entry left at position `i` and
the new rest. -/
def sweep (x : process) : List process → process × List process
  | [] => (x, [])
  | y :: ys =>
    if x.priority < y.priority then ((sweep y ys).1, x :: (sweep y ys).2)
    else ((sweep x ys).1, y :: (sweep x ys).2)

/-- Non-increasing priority, the order `sort_by_priority` aims at. -/
def prio_ge (a b : process) : Prop := b.priority ≤ a.priority

/-- The test of `remove_terminated_processes`: the entry is not Terminated. -/
def kept (p : process) : Bool := decide (p.status ≠ 2)

/-- The number of `SIGCONT` signals sent to `pid` in a trace: the number of
quanta the child has been given. -/
def resumes (log : List Event) (pid : Int) : Nat :=
  log.count (Event.kill pid Signal.SIGCONT)

/-- The trace at the moment `dispatch` calls `waitpid` on entry `i`. -/
def reap_log (TSLICE : Int) (s : State) (i : Nat) : List Event :=
  s.log ++ [Event.kill (s.process_table i).pid Signal.SIGCONT] ++
    [Event.usleep (usleep_arg TSLICE (s.process_table i).priority)]

/-- A history record carries the name, pid and submit time of a job. -/
def record_matches (node : hnode) (p : process) : Prop :=
  node.command = strncpy_max p.process_name ∧ node.pid = p.pid ∧ node.start_time = p.start_time

/-- The quanta a job may still need, plus one: `Q pid` bounds the number of
quanta after which child `pid` has terminated. -/
def weight (Q : Int → Nat) (log : List Event) (p : process) : Nat :=
  1 + (Q p.pid - resumes log p.pid)

/-- The total of `weight` over a list of jobs. -/
def work_left (Q : Int → Nat) (log : List Event) (l : List process) : Nat :=
  (l.map (weight Q log)).sum

/-- What identifies a history record: command, pid and submit time. -/
def record_key (n : hnode) : CStr × Int × Int := (n.command, n.pid, n.start_time)

/-- What a history record keeps of a job: its name as copied by `strncpy`,
its pid and its submit time. -/
def job_key (p : process) : CStr × Int × Int := (strncpy_max p.process_name, p.pid, p.start_time)

/-- A table with two ready jobs, submitted in the order of scenario S1:
pid 11 with priority 1, then pid 12 with priority 4. -/
def state_two_jobs : State :=
  { state_init with
    process_table := fun i =>
      if i = 0 then { pid := 11, status := 1, process_name := ['a'], start_time := 5,
                      end_time := 0, priority := 1 }
      else { pid := 12, status := 1, process_name := ['b'], start_time := 5,
             end_time := 0, priority := 4 }
    process_count := 2 }

/-- An environment whose children all terminate in their second quantum. -/
def env_two_quanta : Env :=
  { env_ok with waitpid := fun log pid => if 2 ≤ resumes log pid then some 0 else none }

/-- The test of `handle_sigint`: the entry is Running (0) or Ready (1). -/
def running_or_ready (p : process) : Bool := decide (p.status = 0 ∨ p.status = 1)

/-- A table of three ready jobs with priorities 1, 1, 2 (pids 21, 22, 23). -/
def state_ties : State :=
  { state_init with
    process_table := fun i =>
      if i = 0 then { pid := 21, status := 1, process_name := ['a'], start_time := 5,
                      end_time := 0, priority := 1 }
      else if i = 1 then { pid := 22, status := 1, process_name := ['b'], start_time := 5,
                           end_time := 0, priority := 1 }
      else { pid := 23, status := 1, process_name := ['c'], start_time := 5,
             end_time := 0, priority := 2 }
    process_count := 3 }

/-- The test of the dispatch loop: the entry is Ready (1). -/
def ready (p : process) : Bool := decide (p.status = 1)

/-- The entry is Terminated (2). -/
def terminated (p : process) : Bool := decide (p.status = 2)

/-- The pids to which a trace sends `SIGCONT`, in order. -/
def sigconts (log : List Event) : List Int :=
  log.filterMap (fun e =>
    match e with
    | Event.kill pid Signal.SIGCONT => some pid
    | _ => none)

/-- The jobs one scheduler iteration resumes, in the order it resumes them:
the Ready entries of the sorted table, up to `NCPU` of them. -/
def dispatched (NCPU : Int) (s : State) : List process :=
  ((live (sort_by_priority s)).filter ready).take NCPU.toNat

/-- An environment whose children never terminate. -/
def env_never : Env :=
  { env_ok with waitpid := fun _ _ => none }

/-- An environment in which every `kill` call fails (returns -1) and no child
is ever reported terminated. -/
def env_kill_fails : Env :=
  { env_ok with
    waitpid := fun _ _ => none
    kill := fun _ _ _ => -1 }

/-- The state of a scheduler iteration when its dispatch loop reaches entry
`a` of the sorted table, the `a` entries before it being Ready and `a` not
above `NCPU`. -/
def loop_reaches (env : Env) (NCPU TSLICE : Int) (s : State) (a : Nat) : State :=
  dispatch_loop env NCPU TSLICE a 0 0 (sort_by_priority s)

/-- The state of a scheduler iteration after its dispatch loop, before
`remove_terminated_processes`. -/
def loop_done (env : Env) (NCPU TSLICE : Int) (s : State) : State :=
  dispatch_loop env NCPU TSLICE s.process_count 0 0 (sort_by_priority s)

/-! ## Numeric facts -/

theorem c_trunc_intCast (m : Int) : c_trunc (m : ℚ) = m := by
  unfold c_trunc
  split <;> simp

theorem get_e_slice_eq (TSLICE priority : Int) :
    get_e_slice TSLICE priority = spec_f priority * (TSLICE : ℚ) := by
  unfold get_e_slice spec_f
  split_ifs <;> norm_num

theorem get_e_slice_mul_1000 (TSLICE priority : Int) :
    ∃ m : Int, get_e_slice TSLICE priority * 1000 = (m : ℚ) ∧
      (0 ≤ TSLICE → 0 ≤ m) := by
  unfold get_e_slice
  split_ifs
  · exact ⟨500 * TSLICE, by push_cast; ring, fun h => by omega⟩
  · exact ⟨750 * TSLICE, by push_cast; ring, fun h => by omega⟩
  · exact ⟨1000 * TSLICE, by push_cast; ring, fun h => by omega⟩
  · exact ⟨1250 * TSLICE, by push_cast; ring, fun h => by omega⟩
  · exact ⟨1000 * TSLICE, by push_cast; ring, fun h => by omega⟩

/-- C2. `get_e_slice priority` is `f priority * TSLICE` for every `TSLICE`
and priority, with `f` = 0.5, 0.75, 1.0, 1.25 on 1..4 and 1.0 elsewhere; and
when `TSLICE ≥ 0` and the product with 1000 is below `2^31`, the cast
`(int)(get_e_slice priority * 1000)` passed to `usleep` is defined and equals
`f priority * TSLICE * 1000` exactly. -/
theorem get_e_slice_spec (TSLICE priority : Int) :
    get_e_slice TSLICE priority = spec_f priority * (TSLICE : ℚ) ∧
    (0 ≤ TSLICE → get_e_slice TSLICE priority * 1000 < 2 ^ 31 →
      ∃ n : Int, usleep_arg TSLICE priority = some n ∧
        (n : ℚ) = spec_f priority * (TSLICE : ℚ) * 1000) := by
  refine ⟨get_e_slice_eq TSLICE priority, fun h0 hlt => ?_⟩
  obtain ⟨m, hm, hpos⟩ := get_e_slice_mul_1000 TSLICE priority
  have hm0 : 0 ≤ m := hpos h0
  have hlt' : m < 2 ^ 31 := by
    rw [hm] at hlt
    exact_mod_cast hlt
  refine ⟨m, ?_, ?_⟩
  · unfold usleep_arg double_to_int
    rw [hm, c_trunc_intCast]
    have : -(2 : Int) ^ 31 ≤ m := by
      have : (0 : Int) < 2 ^ 31 := by norm_num
      omega
    rw [if_pos ⟨this, hlt'⟩]
  · rw [← hm, get_e_slice_eq]

/-- Witness for C2 at `TSLICE = 100`, priority 4: the slice is 125 ms and
`usleep` receives 125000. -/
theorem get_e_slice_spec_witness :
    get_e_slice 100 4 = spec_f 4 * ((100 : Int) : ℚ) ∧
    ∃ n : Int, usleep_arg 100 4 = some n ∧ (n : ℚ) = spec_f 4 * ((100 : Int) : ℚ) * 1000 :=
  ⟨(get_e_slice_spec 100 4).1,
   (get_e_slice_spec 100 4).2 (by decide) (by norm_num [get_e_slice])⟩

/-! ## History records and their display -/

theorem c_trunc_le_self (x : ℚ) (hx : 0 ≤ x) : ((c_trunc x : Int) : ℚ) ≤ x := by
  unfold c_trunc
  rw [if_pos hx]
  exact Int.floor_le x

theorem display_loop_append (TSLICE : Int) (h : List hnode) (node : hnode) (count : Int) :
    display_loop TSLICE count (h ++ [node]) =
      display_loop TSLICE count h ++ [display_node TSLICE (count + h.length) node] := by
  induction h generalizing count with
  | nil => simp [display_loop]
  | cons x xs ih =>
    rw [List.cons_append]
    simp only [display_loop]
    rw [ih]
    have e : count + 1 + (xs.length : Int) = count + ((x :: xs).length : Int) := by
      simp only [List.length_cons]
      push_cast
      omega
    rw [e, List.cons_append]

theorem add_history_of_malloc (env : Env) (TSLICE : Int) (s : State) (command : CStr)
    (pid start end_ status : Int) (hm : env.malloc s.log = true) :
    add_history env TSLICE s command pid start end_ status =
      { s with
        history := s.history ++
          [{ command := strncpy_max command, pid := pid, start_time := start,
             end_time := start + c_trunc
               (if difftime end_ start < (TSLICE : ℚ) / 1000 then (TSLICE : ℚ) / 1000
                else difftime end_ start),
             status := status }],
        log := s.log ++ [Event.malloc] } := by
  simp [add_history, hm]

/-- The completion time printed for a record written by `add_history`. -/
theorem display_node_add_history_c_time (TSLICE count : Int) (command : CStr)
    (pid start end_ status : Int) (hT : 0 ≤ TSLICE) :
    (display_node TSLICE count
      { command := command, pid := pid, start_time := start,
        end_time := start + c_trunc
          (if difftime end_ start < (TSLICE : ℚ) / 1000 then (TSLICE : ℚ) / 1000
           else difftime end_ start),
        status := status }).c_time = max (difftime end_ start) ((TSLICE : ℚ) / 1000) := by
  have hT' : (0 : ℚ) ≤ (TSLICE : ℚ) / 1000 := by
    have : (0 : ℚ) ≤ (TSLICE : ℚ) := by exact_mod_cast hT
    positivity
  simp only [display_node]
  by_cases hlt : difftime end_ start < (TSLICE : ℚ) / 1000
  · rw [if_pos hlt, max_eq_right (le_of_lt hlt)]
    have h1 : difftime (start + c_trunc ((TSLICE : ℚ) / 1000)) start
        = ((c_trunc ((TSLICE : ℚ) / 1000) : Int) : ℚ) := by
      simp [difftime]
    rw [h1]
    have h2 := c_trunc_le_self _ hT'
    split_ifs with h3
    · rfl
    · exact le_antisymm h2 (not_lt.mp h3)
  · rw [if_neg hlt, max_eq_left (not_lt.mp hlt)]
    have h1 : difftime (start + c_trunc (difftime end_ start)) start = difftime end_ start := by
      show (((start + c_trunc ((end_ - start : Int) : ℚ)) - start : Int) : ℚ)
        = ((end_ - start : Int) : ℚ)
      rw [c_trunc_intCast]
      congr 1
      omega
    rw [h1, if_neg hlt]

/-- C7. For `TSLICE ≥ 0` and whole-second times `start` and `end` (whether or
not `start ≤ end`), the record that `add_history` appends is printed last by
`display_history_details`, with a completion time of at least `TSLICE / 1000`
seconds, equal to `max (end - start) (TSLICE / 1000)`. -/
theorem completion_time_floor (env : Env) (TSLICE : Int) (s : State) (command : CStr)
    (pid start end_ status : Int) (hT : 0 ≤ TSLICE) (hm : env.malloc s.log = true) :
    ∃ line : HistoryLine,
      display_history_details TSLICE (add_history env TSLICE s command pid start end_ status)
        = display_history_details TSLICE s ++ [line] ∧
      line.pid = pid ∧
      (TSLICE : ℚ) / 1000 ≤ line.c_time ∧
      line.c_time = max (((end_ - start : Int) : ℚ)) ((TSLICE : ℚ) / 1000) := by
  rw [add_history_of_malloc env TSLICE s command pid start end_ status hm]
  simp only [display_history_details, display_loop_append]
  refine ⟨_, rfl, rfl, ?_, ?_⟩
  · rw [display_node_add_history_c_time TSLICE _ _ pid start end_ status hT]
    exact le_max_right _ _
  · rw [display_node_add_history_c_time TSLICE _ _ pid start end_ status hT]
    rfl

/-- Witness for C7: scenario S2, `TSLICE = 500` and a job reaped in the second
it was submitted. -/
theorem completion_time_floor_witness :
    (0 : Int) ≤ 500 ∧
    ∃ line : HistoryLine,
      display_history_details 500 (add_history env_ok 500 state_init ['t'] 7 10 10 0)
        = display_history_details 500 state_init ++ [line] ∧
      line.pid = 7 ∧
      ((500 : Int) : ℚ) / 1000 ≤ line.c_time ∧
      line.c_time = max (((10 - 10 : Int) : ℚ)) (((500 : Int) : ℚ) / 1000) :=
  ⟨by decide,
   completion_time_floor env_ok 500 state_init ['t'] 7 10 10 0 (by decide) rfl⟩

/-- C8. For every record and every `TSLICE`, the wait time that
`display_history_details` computes is `max 0 (raw elapsed - completion time)`
and is exactly 0; so every printed line has wait time 0. -/
theorem wait_time_zero (TSLICE : Int) (s : State) :
    (∀ (count : Int) (temp : hnode),
      (display_node TSLICE count temp).w_time =
        max 0 (difftime temp.end_time temp.start_time - (display_node TSLICE count temp).c_time) ∧
      (display_node TSLICE count temp).w_time = 0) ∧
    ∀ line ∈ display_history_details TSLICE s, line.w_time = 0 := by
  have key : ∀ (count : Int) (temp : hnode),
      (display_node TSLICE count temp).w_time =
        max 0 (difftime temp.end_time temp.start_time - (display_node TSLICE count temp).c_time) ∧
      (display_node TSLICE count temp).w_time = 0 := by
    intro count temp
    simp only [display_node]
    by_cases hlt : difftime temp.end_time temp.start_time < (TSLICE : ℚ) / 1000
    · have hneg : difftime temp.end_time temp.start_time - (TSLICE : ℚ) / 1000 < 0 := by linarith
      rw [if_pos hlt, if_pos hneg, max_eq_left (le_of_lt hneg)]
      exact ⟨rfl, rfl⟩
    · rw [if_neg hlt]
      simp
  refine ⟨key, ?_⟩
  have loop : ∀ (h : List hnode) (count : Int), ∀ line ∈ display_loop TSLICE count h,
      line.w_time = 0 := by
    intro h
    induction h with
    | nil => intro count line hl; simp [display_loop] at hl
    | cons x xs ih =>
      intro count line hl
      simp only [display_loop, List.mem_cons] at hl
      rcases hl with rfl | hl
      · exact (key count x).2
      · exact ih _ line hl
  exact loop s.history 1

/-! ## Submitting jobs -/

theorem submit_job_full (env : Env) (s : State) (command : CStr) (priority : Int)
    (h : MAX ≤ s.process_count) : submit_job env s command priority = s := by
  unfold submit_job
  rw [if_pos h]

theorem submit_job_count_le (env : Env) (s : State) (command : CStr) (priority : Int)
    (h : s.process_count ≤ MAX) : (submit_job env s command priority).process_count ≤ MAX := by
  unfold submit_job
  by_cases hfull : s.process_count ≥ MAX
  · rw [if_pos hfull]; exact h
  · rw [if_neg hfull]
    simp only
    split_ifs
    · exact h
    · exact h
    · show s.process_count + 1 ≤ MAX
      omega

theorem submit_job_spawned (env : Env) (s : State) (command : CStr) (priority : Int)
    (hcap : s.process_count < MAX) (hfork : 0 < env.fork s.log) :
    submit_job env s command priority =
      { process_table := Function.update s.process_table s.process_count
          { s.process_table s.process_count with
            pid := env.fork s.log, status := 1, process_name := strncpy_max command,
            start_time := env.time (s.log ++ [Event.fork]), priority := priority }
        process_count := s.process_count + 1
        history := s.history
        log := s.log ++ [Event.fork] ++ [Event.time] } := by
  unfold submit_job
  have h1 : ¬ s.process_count ≥ MAX := by omega
  have h2 : ¬ env.fork s.log < 0 := by omega
  have h3 : ¬ env.fork s.log = 0 := by omega
  rw [if_neg h1]
  simp only [if_neg h2, if_neg h3]

theorem submit_all_count_le (env : Env) (jobs : List (CStr × Int)) (s : State)
    (h : s.process_count ≤ MAX) : (submit_all env s jobs).process_count ≤ MAX := by
  induction jobs generalizing s with
  | nil => exact h
  | cons job jobs ih => exact ih _ (submit_job_count_le env s job.1 job.2 h)

theorem submit_all_count (env : Env) (hfork : ∀ log, 0 < env.fork log)
    (jobs : List (CStr × Int)) (s : State) (h : s.process_count ≤ MAX) :
    (submit_all env s jobs).process_count = min (s.process_count + jobs.length) MAX := by
  induction jobs generalizing s with
  | nil => simp [submit_all, h]
  | cons job jobs ih =>
    simp only [submit_all]
    rw [ih _ (submit_job_count_le env s job.1 job.2 h)]
    by_cases hfull : s.process_count = MAX
    · rw [submit_job_full env s job.1 job.2 (by omega)]
      simp [hfull]
    · rw [submit_job_spawned env s job.1 job.2 (by omega) (hfork _)]
      simp only [List.length_cons]
      congr 1
      omega

/-- C5. `submit_job` called with `process_count = MAX = 100` returns the state
unchanged: no `fork`, same `process_count`, same table.  Hence after any
sequence of `submit_job` calls from a table within capacity `process_count`
is at most 100, and 101 submits whose spawns all succeed, starting from the
empty table, leave exactly 100 jobs. -/
theorem submit_job_capacity (env : Env) (s : State) (command : CStr) (priority : Int)
    (jobs : List (CStr × Int)) :
    (s.process_count = MAX → submit_job env s command priority = s) ∧
    (s.process_count ≤ MAX → (submit_all env s jobs).process_count ≤ MAX) ∧
    ((∀ log, 0 < env.fork log) → s.process_count = 0 → jobs.length = 101 →
      (submit_all env s jobs).process_count = 100 ∧
      submit_all env s jobs = submit_all env s (jobs.take 100)) := by
  refine ⟨fun h => submit_job_full env s command priority (by omega),
    fun h => submit_all_count_le env jobs s h, fun hfork h0 hlen => ?_⟩
  have hc : (submit_all env s jobs).process_count = 100 := by
    rw [submit_all_count env hfork jobs s (by omega), h0, hlen]
    rfl
  refine ⟨hc, ?_⟩
  have happ : ∀ (l1 l2 : List (CStr × Int)) (st : State),
      submit_all env st (l1 ++ l2) = submit_all env (submit_all env st l1) l2 := by
    intro l1
    induction l1 with
    | nil => intro l2 st; rfl
    | cons a l1 ih => intro l2 st; exact ih l2 _
  have hsplit : jobs = jobs.take 100 ++ jobs.drop 100 := (List.take_append_drop 100 jobs).symm
  have hdrop : ∃ j, jobs.drop 100 = [j] := by
    have hl : (jobs.drop 100).length = 1 := by simp [hlen]
    match hd : jobs.drop 100, hl with
    | [j], _ => exact ⟨j, rfl⟩
  obtain ⟨j, hj⟩ := hdrop
  have h100 : (submit_all env s (jobs.take 100)).process_count = 100 := by
    rw [submit_all_count env hfork _ s (by omega), h0]
    simp [hlen]
  conv_lhs => rw [hsplit, hj, happ]
  simp only [submit_all]
  exact submit_job_full env _ j.1 j.2 (by rw [h100])

/-- Witness for C5: a full table (100 jobs submitted) refuses one more job,
and 101 submits leave 100 jobs. -/
theorem submit_job_capacity_witness :
    (submit_all env_ok state_init (List.replicate 100 (['a'], 1))).process_count = MAX ∧
    submit_job env_ok (submit_all env_ok state_init (List.replicate 100 (['a'], 1))) ['b'] 2
      = submit_all env_ok state_init (List.replicate 100 (['a'], 1)) ∧
    (submit_all env_ok state_init (List.replicate 101 (['a'], 1))).process_count = 100 :=
  have hfork : ∀ log, 0 < env_ok.fork log := fun log => by
    show (0 : Int) < 100 + (log.length : Int)
    omega
  have hfull : (submit_all env_ok state_init (List.replicate 100 (['a'], 1))).process_count
      = MAX := by
    rw [submit_all_count env_ok hfork _ _ (by decide)]
    simp [state_init]
  ⟨hfull,
   (submit_job_capacity env_ok _ ['b'] 2 []).1 hfull,
   ((submit_job_capacity env_ok state_init [] 0 (List.replicate 101 (['a'], 1))).2.2
      hfork rfl (by simp)).1⟩

/-- C6, counterexample. The shell command `submit /bin/true 7` registers a
Ready job whose priority is 7, outside 1..4: the priority is neither clamped
nor the job rejected. -/
theorem submit_job_clamp_counterexample :
    (shell_submit env_ok state_init "/bin/true 7".toList).process_count = 1 ∧
    ((shell_submit env_ok state_init "/bin/true 7".toList).process_table 0).status = 1 ∧
    ((shell_submit env_ok state_init "/bin/true 7".toList).process_table 0).priority = 7 ∧
    ¬ (1 ≤ ((shell_submit env_ok state_init "/bin/true 7".toList).process_table 0).priority ∧
       ((shell_submit env_ok state_init "/bin/true 7".toList).process_table 0).priority ≤ 4) := by
  decide

/-- C6, amended. After `submit_job command priority` with room in the table
and a successful spawn, the table has one more entry; the new entry is Ready,
carries the child pid, and its priority is exactly the submitted value,
whatever it is; the other entries are unchanged.  So the new entry has its
priority in 1..4 exactly when the submitted priority is in 1..4. -/
theorem submit_job_registers (env : Env) (s : State) (command : CStr) (priority : Int)
    (hcap : s.process_count < MAX) (hfork : 0 < env.fork s.log) :
    (submit_job env s command priority).process_count = s.process_count + 1 ∧
    ((submit_job env s command priority).process_table s.process_count).status = 1 ∧
    ((submit_job env s command priority).process_table s.process_count).pid = env.fork s.log ∧
    ((submit_job env s command priority).process_table s.process_count).priority = priority ∧
    (∀ i, i ≠ s.process_count →
      (submit_job env s command priority).process_table i = s.process_table i) ∧
    ((1 ≤ ((submit_job env s command priority).process_table s.process_count).priority ∧
      ((submit_job env s command priority).process_table s.process_count).priority ≤ 4) ↔
      (1 ≤ priority ∧ priority ≤ 4)) := by
  rw [submit_job_spawned env s command priority hcap hfork]
  refine ⟨rfl, ?_, ?_, ?_, ?_, ?_⟩
  · simp
  · simp
  · simp
  · intro i hi
    simp [Function.update, hi]
  · simp

/-- Witness for C6 amended: submitting priority 9 to the empty table. -/
theorem submit_job_registers_witness :
    state_init.process_count < MAX ∧ 0 < env_ok.fork state_init.log ∧
    ((submit_job env_ok state_init ['x'] 9).process_table state_init.process_count).priority = 9 :=
  ⟨by decide, by decide,
   (submit_job_registers env_ok state_init ['x'] 9 (by decide) (by decide)).2.2.2.1⟩

/-! ## The `submit` command of the shell -/

theorem strrchr_none (job : CStr) (c : Char) (h : c ∉ job) : strrchr job c = none := by
  induction job with
  | nil => rfl
  | cons x xs ih =>
    simp only [List.mem_cons, not_or] at h
    simp only [strrchr, ih h.2]
    rw [if_neg (fun e => h.1 e.symm)]

theorem strrchr_last (pre tok : CStr) (c : Char) (h : c ∉ tok) :
    strrchr (pre ++ c :: tok) c = some pre.length := by
  induction pre with
  | nil => simp [strrchr, strrchr_none tok c h]
  | cons x xs ih => simp [strrchr, ih]

theorem atoi_digits_eq (tok : CStr) (acc : Int) :
    atoi_digits acc tok =
      (tok.takeWhile isdigit).foldl (fun a c => a * 10 + ((c.toNat : Int) - 48)) acc := by
  induction tok generalizing acc with
  | nil => rfl
  | cons c cs ih =>
    by_cases hc : isdigit c = true
    · simp [atoi_digits, List.takeWhile, hc, ih]
    · simp [atoi_digits, List.takeWhile, hc]

theorem strtol_value_of_digit (d : Char) (rest : CStr) (hd : isdigit d = true) :
    strtol_value (d :: rest) = digits_value ((d :: rest).takeWhile isdigit) := by
  have hr : 48 ≤ d.toNat ∧ d.toNat ≤ 57 := by
    simpa [isdigit] using hd
  have hs : isspace d = false := by
    simp only [isspace, Bool.or_eq_false_iff, beq_eq_false_iff_ne, Bool.and_eq_false_iff,
      decide_eq_false_iff_not]
    omega
  have hminus : d ≠ '-' := by
    rintro rfl
    revert hr
    decide
  have hplus : d ≠ '+' := by
    rintro rfl
    revert hr
    decide
  unfold strtol_value
  simp only [hs, Bool.false_eq_true, if_false, if_neg hminus, if_neg hplus]
  exact atoi_digits_eq (d :: rest) 0

theorem atoi_of_digit (d : Char) (rest : CStr) (hd : isdigit d = true) :
    atoi (d :: rest)
      = long_to_int (long_saturate (digits_value ((d :: rest).takeWhile isdigit))) := by
  unfold atoi
  rw [strtol_value_of_digit d rest hd]

theorem digits_foldl_nonneg (ds : List Char) (h : ∀ c ∈ ds, isdigit c = true) (acc : Int)
    (hacc : 0 ≤ acc) :
    0 ≤ ds.foldl (fun a c => a * 10 + ((c.toNat : Int) - 48)) acc := by
  induction ds generalizing acc with
  | nil => exact hacc
  | cons c cs ih =>
    have hc : 48 ≤ c.toNat ∧ c.toNat ≤ 57 := by
      simpa [isdigit] using h c (List.mem_cons_self _ _)
    rw [List.foldl_cons]
    exact ih (fun x hx => h x (List.mem_cons_of_mem _ hx)) _ (by omega)

theorem digits_value_nonneg (tok : CStr) : 0 ≤ digits_value (tok.takeWhile isdigit) :=
  digits_foldl_nonneg _ (fun _ hc => (List.mem_takeWhile_imp hc)) 0 (le_refl 0)

/-- A value that fits a non-negative `int` passes through `strtol` and the
conversion to `int` unchanged. -/
theorem long_to_int_of_fits (v : Int) (h0 : 0 ≤ v) (h1 : v < 2147483648) :
    long_to_int (long_saturate v) = v := by
  unfold long_to_int long_saturate
  rw [if_neg (by omega), if_neg (by omega)]
  omega

/-- C9, counterexample. For the argument `foo 2abc` the final token is not a
digit string, yet the shell passes priority 2 and command `foo`, not priority
1 and the whole argument. -/
theorem parse_submit_counterexample :
    parse_submit "foo 2abc".toList = ("foo".toList, 2) ∧
    parse_submit "foo 2abc".toList ≠ ("foo 2abc".toList, 1) := by
  decide

/-- C9, amended. Split the argument at its last space, `job = pre ++ ' ' :: tok`
with no space in `tok`.  If `tok` begins with a decimal digit the shell passes
`pre` as the command and, as the priority, what `atoi` makes of the leading
run of digits of `tok`: its value when that is below `2^31` (the value of
`tok` itself when `tok` is all digits), and otherwise that value saturated to
a `long` and cut to an `int`.  If `tok` is empty or begins with another
character, or if the argument has no space at all, the shell passes the whole
argument with priority 1. -/
theorem parse_submit_spec (job : CStr) :
    (∀ pre tok : CStr, job = pre ++ ' ' :: tok → ' ' ∉ tok →
      (∀ d rest, tok = d :: rest → isdigit d = true →
        parse_submit job
          = (pre, long_to_int (long_saturate (digits_value (tok.takeWhile isdigit)))) ∧
        (digits_value (tok.takeWhile isdigit) < 2147483648 →
          parse_submit job = (pre, digits_value (tok.takeWhile isdigit))) ∧
        ((∀ c ∈ tok, isdigit c = true) → digits_value tok < 2147483648 →
          parse_submit job = (pre, digits_value tok))) ∧
      (tok = [] → parse_submit job = (job, 1)) ∧
      (∀ d rest, tok = d :: rest → isdigit d = false → parse_submit job = (job, 1))) ∧
    (' ' ∉ job → parse_submit job = (job, 1)) := by
  refine ⟨fun pre tok hjob hsp => ?_, fun h => ?_⟩
  · have hidx : strrchr job ' ' = some pre.length := by
      rw [hjob]; exact strrchr_last pre tok ' ' hsp
    have hget : job.getD (pre.length + 1) (Char.ofNat 0) = tok.getD 0 (Char.ofNat 0) := by
      rw [hjob]
      simp [List.getD_eq_getElem?_getD, List.getElem?_append_right]
    have htake : job.take pre.length = pre := by
      rw [hjob]; simp
    have hdrop : job.drop (pre.length + 1) = tok := by
      rw [hjob]
      simp [List.drop_append_eq_append_drop]
    refine ⟨fun d rest htok hd => ?_, fun htok => ?_, fun d rest htok hd => ?_⟩
    · have hp : parse_submit job
          = (pre, long_to_int (long_saturate (digits_value (tok.takeWhile isdigit)))) := by
        unfold parse_submit
        rw [hidx]
        simp only [hget, htake, hdrop]
        rw [htok]
        simp only [List.getD_cons_zero, hd, if_true]
        rw [atoi_of_digit d rest hd]
      have hfit : digits_value (tok.takeWhile isdigit) < 2147483648 →
          parse_submit job = (pre, digits_value (tok.takeWhile isdigit)) := by
        intro hlt
        rw [hp, long_to_int_of_fits _ (digits_value_nonneg tok) hlt]
      refine ⟨hp, hfit, fun hall hlt => ?_⟩
      have hself : tok.takeWhile isdigit = tok := List.takeWhile_eq_self_iff.mpr hall
      rw [hself] at hfit
      exact hfit hlt
    · unfold parse_submit
      rw [hidx]
      simp only [hget, htok]
      rfl
    · unfold parse_submit
      rw [hidx]
      simp only [hget, htok, List.getD_cons_zero, hd]
      rfl
  · unfold parse_submit
    rw [strrchr_none job ' ' h]

/-- Witness for C9 amended: `sleep 5 3` is split into command `sleep 5` and
priority 3; and the digit run of `/bin/true 4294967297`, too large for an
`int`, arrives as priority 1. -/
theorem parse_submit_spec_witness :
    parse_submit "sleep 5 3".toList = ("sleep 5".toList, digits_value ['3']) ∧
    parse_submit "/bin/true 4294967297".toList = ("/bin/true".toList, 1) :=
  ⟨((parse_submit_spec "sleep 5 3".toList).1 "sleep 5".toList ['3'] (by decide)
      (by decide)).1 '3' [] rfl (by decide) |>.2.2 (by decide) (by decide),
   by decide⟩

/-! ## Segments of the table -/

@[simp] theorem seg_zero (t : Nat → process) (i : Nat) : seg t i 0 = [] := rfl

theorem seg_succ (t : Nat → process) (i k : Nat) :
    seg t i (k + 1) = t i :: seg t (i + 1) k := by
  simp [seg, List.range'_succ]

theorem seg_concat (t : Nat → process) (i k : Nat) :
    seg t i (k + 1) = seg t i k ++ [t (i + k)] := by
  simp [seg, List.range'_concat]

@[simp] theorem length_seg (t : Nat → process) (i k : Nat) : (seg t i k).length = k := by
  simp [seg]

theorem seg_add (t : Nat → process) (i k m : Nat) :
    seg t i (k + m) = seg t i k ++ seg t (i + k) m := by
  induction m with
  | zero => simp
  | succ m ih =>
    rw [← Nat.add_assoc, seg_concat, ih, seg_concat, List.append_assoc, Nat.add_assoc]

theorem seg_congr (t u : Nat → process) (i k : Nat)
    (h : ∀ a, i ≤ a → a < i + k → t a = u a) : seg t i k = seg u i k := by
  induction k generalizing i with
  | zero => rfl
  | succ k ih =>
    rw [seg_succ, seg_succ, h i (le_refl i) (by omega)]
    congr 1
    exact ih (i + 1) (fun a h1 h2 => h a (by omega) (by omega))

theorem seg_update_outside (t : Nat → process) (i k a : Nat) (v : process)
    (h : a < i ∨ i + k ≤ a) : seg (Function.update t a v) i k = seg t i k := by
  apply seg_congr
  intro b h1 h2
  have : b ≠ a := by omega
  simp [Function.update, this]

theorem mem_seg (t : Nat → process) (i k : Nat) (x : process) :
    x ∈ seg t i k ↔ ∃ a, i ≤ a ∧ a < i + k ∧ t a = x := by
  simp only [seg, List.mem_map, List.mem_range'_1]
  constructor
  · rintro ⟨a, ⟨h1, h2⟩, h3⟩; exact ⟨a, h1, h2, h3⟩
  · rintro ⟨a, h1, h2, h3⟩; exact ⟨a, ⟨h1, h2⟩, h3⟩

theorem seg_eq_pointwise (t u : Nat → process) (i j k : Nat) (h : seg t i k = seg u j k) :
    ∀ a, a < k → t (i + a) = u (j + a) := by
  induction k generalizing i j with
  | zero => intro a ha; omega
  | succ k ih =>
    rw [seg_succ, seg_succ] at h
    injection h with h0 h1
    intro a ha
    cases a with
    | zero => simpa using h0
    | succ a =>
      have := ih (i + 1) (j + 1) h1 a (by omega)
      rw [show i + (a + 1) = i + 1 + a by omega, show j + (a + 1) = j + 1 + a by omega]
      exact this

theorem pairwise_seg (R : process → process → Prop) (t : Nat → process) (i k : Nat) :
    (seg t i k).Pairwise R ↔ ∀ a b, i ≤ a → a < b → b < i + k → R (t a) (t b) := by
  induction k generalizing i with
  | zero =>
    simp only [seg_zero, List.Pairwise.nil, true_iff]
    intro a b h1 h2 h3; omega
  | succ k ih =>
    rw [seg_succ, List.pairwise_cons, ih]
    constructor
    · rintro ⟨h1, h2⟩ a b ha hab hb
      by_cases hai : a = i
      · subst hai
        exact h1 _ ((mem_seg t (a + 1) k (t b)).mpr ⟨b, by omega, by omega, rfl⟩)
      · exact h2 a b (by omega) hab (by omega)
    · intro h
      refine ⟨fun x hx => ?_, fun a b ha hab hb => h a b (by omega) hab (by omega)⟩
      obtain ⟨b, hb1, hb2, rfl⟩ := (mem_seg t (i + 1) k x).mp hx
      exact h i b (le_refl i) (by omega) (by omega)

/-! ## `sort_by_priority` -/

theorem sweep_perm (x : process) (l : List process) :
    List.Perm ((sweep x l).1 :: (sweep x l).2) (x :: l) := by
  induction l generalizing x with
  | nil => simp [sweep]
  | cons y ys ih =>
    simp only [sweep]
    split_ifs
    · exact (List.Perm.swap _ _ _).trans ((ih y).cons x)
    · exact ((List.Perm.swap _ _ _).trans ((ih x).cons y)).trans (List.Perm.swap _ _ _)

theorem sweep_fst_ge (x : process) (l : List process) :
    x.priority ≤ (sweep x l).1.priority := by
  induction l generalizing x with
  | nil => simp [sweep]
  | cons y ys ih =>
    simp only [sweep]
    split_ifs with h
    · exact le_trans (le_of_lt h) (ih y)
    · exact ih x

theorem sweep_max (x : process) (l : List process) :
    ∀ y ∈ (sweep x l).2, prio_ge (sweep x l).1 y := by
  induction l generalizing x with
  | nil => simp [sweep]
  | cons y ys ih =>
    simp only [sweep]
    split_ifs with h
    · intro z hz
      simp only [List.mem_cons] at hz
      rcases hz with rfl | hz
      · exact le_trans (le_of_lt h) (sweep_fst_ge y ys)
      · exact ih y z hz
    · intro z hz
      simp only [List.mem_cons] at hz
      rcases hz with rfl | hz
      · exact le_trans (not_lt.mp h) (sweep_fst_ge x ys)
      · exact ih x z hz

/-- The inner loop of `sort_by_priority` computes `sweep` on the entries
`j .. j+k-1` and touches nothing else but entry `i`. -/
theorem sort_inner_spec (k i j : Nat) (t : Nat → process) (hij : i < j) :
    sort_inner k i j t i = (sweep (t i) (seg t j k)).1 ∧
    seg (sort_inner k i j t) j k = (sweep (t i) (seg t j k)).2 ∧
    ∀ a, a ≠ i → (a < j ∨ j + k ≤ a) → sort_inner k i j t a = t a := by
  induction k generalizing j t with
  | zero => simp [sort_inner, sweep]
  | succ k ih =>
    have hne : i ≠ j := by omega
    rw [seg_succ]
    simp only [sort_inner, sweep]
    by_cases hlt : (t i).priority < (t j).priority
    · simp only [if_pos hlt]
      obtain ⟨h1, h2, h3⟩ := ih (j + 1) (Function.update (Function.update t i (t j)) j (t i))
        (by omega)
      have ei : Function.update (Function.update t i (t j)) j (t i) i = t j := by
        simp [Function.update, hne]
      have ej : Function.update (Function.update t i (t j)) j (t i) j = t i := by
        simp [Function.update]
      have es : seg (Function.update (Function.update t i (t j)) j (t i)) (j + 1) k
          = seg t (j + 1) k := by
        rw [seg_update_outside _ _ _ _ _ (Or.inl (by omega)),
          seg_update_outside _ _ _ _ _ (Or.inl (by omega))]
      rw [ei, es] at h1 h2
      refine ⟨h1, ?_, ?_⟩
      · rw [seg_succ, h2, h3 j (by omega) (Or.inl (by omega)), ej]
      · intro a ha hr
        rw [h3 a ha (by omega)]
        have : a ≠ j := by omega
        simp [Function.update, ha, this]
    · simp only [if_neg hlt]
      obtain ⟨h1, h2, h3⟩ := ih (j + 1) t (by omega)
      refine ⟨h1, ?_, ?_⟩
      · rw [seg_succ, h2, h3 j (by omega) (Or.inl (by omega))]
      · intro a ha hr
        exact h3 a ha (by omega)

/-- The outer loop of `sort_by_priority` from index `i` on: the entries
`i .. process_count-1` end up in non-increasing priority order and are a
permutation of what they were; the other entries are untouched. -/
theorem sort_outer_spec (pc k i : Nat) (t : Nat → process) (hk : i + k + 1 = pc) :
    (seg (sort_outer pc k i t) i (k + 1)).Pairwise prio_ge ∧
    List.Perm (seg (sort_outer pc k i t) i (k + 1)) (seg t i (k + 1)) ∧
    ∀ a, (a < i ∨ pc ≤ a) → sort_outer pc k i t a = t a := by
  induction k generalizing i t with
  | zero =>
    simp [sort_outer, seg_succ]
  | succ k ih =>
    simp only [sort_outer]
    have hpc : pc - (i + 1) = k + 1 := by omega
    rw [hpc]
    obtain ⟨h1, h2, h3⟩ := sort_inner_spec (k + 1) i (i + 1) t (by omega)
    obtain ⟨g1, g2, g3⟩ := ih (i + 1) (sort_inner (k + 1) i (i + 1) t) (by omega)
    have ehead : sort_outer pc k (i + 1) (sort_inner (k + 1) i (i + 1) t) i
        = (sweep (t i) (seg t (i + 1) (k + 1))).1 := by
      rw [g3 i (Or.inl (by omega)), h1]
    refine ⟨?_, ?_, ?_⟩
    · rw [seg_succ, List.pairwise_cons]
      refine ⟨fun y hy => ?_, g1⟩
      rw [ehead]
      have hy2 : y ∈ (sweep (t i) (seg t (i + 1) (k + 1))).2 := by
        rw [← h2]
        exact g2.subset hy
      exact sweep_max _ _ y hy2
    · rw [seg_succ, ehead, seg_succ t i (k + 1)]
      refine List.Perm.trans ?_ (sweep_perm (t i) (seg t (i + 1) (k + 1)))
      refine List.Perm.cons _ ?_
      rw [← h2]
      exact g2
    · intro a ha
      rw [g3 a (by omega), h3 a (by omega) (by omega)]

theorem sort_inner_of_ge (k i j : Nat) (t : Nat → process)
    (h : ∀ b, j ≤ b → b < j + k → (t b).priority ≤ (t i).priority) :
    sort_inner k i j t = t := by
  induction k generalizing j with
  | zero => rfl
  | succ k ih =>
    simp only [sort_inner]
    rw [if_neg (not_lt.mpr (h j (le_refl j) (by omega)))]
    exact ih (j + 1) (fun b h1 h2 => h b (by omega) (by omega))

theorem sort_outer_of_sorted (pc k i : Nat) (t : Nat → process) (hk : i + k + 1 ≤ pc)
    (h : ∀ a b, a < b → b < pc → (t b).priority ≤ (t a).priority) :
    sort_outer pc k i t = t := by
  induction k generalizing i with
  | zero => rfl
  | succ k ih =>
    simp only [sort_outer]
    rw [sort_inner_of_ge _ _ _ _ (fun b h1 h2 => h i b (by omega) (by omega))]
    exact ih (i + 1) (by omega)

/-- After `sort_by_priority` the jobs are in non-increasing priority order and
are a permutation of the jobs before; nothing else changes. -/
theorem sort_by_priority_spec (s : State) :
    (live (sort_by_priority s)).Pairwise prio_ge ∧
    List.Perm (live (sort_by_priority s)) (live s) ∧
    (sort_by_priority s).process_count = s.process_count ∧
    (sort_by_priority s).history = s.history ∧
    (sort_by_priority s).log = s.log := by
  refine ⟨?_, ?_, rfl, rfl, rfl⟩
  · show (seg (sort_outer s.process_count (s.process_count - 1) 0 s.process_table) 0
      s.process_count).Pairwise prio_ge
    rcases Nat.eq_zero_or_pos s.process_count with h0 | hpos
    · rw [h0]; simp
    · obtain ⟨h1, -, -⟩ := sort_outer_spec s.process_count (s.process_count - 1) 0
        s.process_table (by omega)
      rwa [show s.process_count - 1 + 1 = s.process_count by omega] at h1
  · show List.Perm (seg (sort_outer s.process_count (s.process_count - 1) 0 s.process_table) 0
      s.process_count) (seg s.process_table 0 s.process_count)
    rcases Nat.eq_zero_or_pos s.process_count with h0 | hpos
    · rw [h0]; simp
    · obtain ⟨-, h2, -⟩ := sort_outer_spec s.process_count (s.process_count - 1) 0
        s.process_table (by omega)
      rwa [show s.process_count - 1 + 1 = s.process_count by omega] at h2

/-- Sorting a table whose jobs are already in non-increasing priority order
changes nothing. -/
theorem sort_by_priority_of_sorted (s : State) (h : (live s).Pairwise prio_ge) :
    sort_by_priority s = s := by
  have hp := (pairwise_seg prio_ge s.process_table 0 s.process_count).mp h
  have : sort_outer s.process_count (s.process_count - 1) 0 s.process_table = s.process_table := by
    rcases Nat.eq_zero_or_pos s.process_count with h0 | hpos
    · rw [h0]; rfl
    · exact sort_outer_of_sorted _ _ _ _ (by omega)
        (fun a b hab hb => hp a b (Nat.zero_le a) hab (by omega))
  unfold sort_by_priority
  rw [this]

theorem sort_by_priority_idem (s : State) :
    sort_by_priority (sort_by_priority s) = sort_by_priority s :=
  sort_by_priority_of_sorted _ (sort_by_priority_spec s).1

/-! ## `remove_terminated_processes` -/

theorem kept_iff (p : process) : kept p = true ↔ p.status ≠ 2 := by
  simp [kept]

/-- The loop of `remove_terminated_processes` copies the entries that are not
Terminated, in order, to the positions from `new_count` on. -/
theorem remove_loop_spec (k i nc : Nat) (t : Nat → process) (h : nc ≤ i) :
    (remove_loop k i nc t).2 = nc + ((seg t i k).filter kept).length ∧
    seg (remove_loop k i nc t).1 nc ((seg t i k).filter kept).length = (seg t i k).filter kept ∧
    ∀ a, a < nc → (remove_loop k i nc t).1 a = t a := by
  induction k generalizing i nc t with
  | zero => simp [remove_loop]
  | succ k ih =>
    rw [seg_succ]
    simp only [remove_loop]
    by_cases hk : (t i).status ≠ 2
    · have hkept : kept (t i) = true := (kept_iff _).mpr hk
      rw [if_pos hk, List.filter_cons_of_pos hkept]
      obtain ⟨h1, h2, h3⟩ := ih (i + 1) (nc + 1) (Function.update t nc (t i)) (by omega)
      have es : seg (Function.update t nc (t i)) (i + 1) k = seg t (i + 1) k :=
        seg_update_outside _ _ _ _ _ (Or.inl (by omega))
      rw [es] at h1 h2
      refine ⟨?_, ?_, ?_⟩
      · rw [h1, List.length_cons]; omega
      · rw [List.length_cons, seg_succ, h2, h3 nc (by omega)]
        simp [Function.update]
      · intro a ha
        rw [h3 a (by omega)]
        have : a ≠ nc := by omega
        simp [Function.update, this]
    · have hkept : ¬ kept (t i) = true := fun hh => hk ((kept_iff _).mp hh)
      rw [if_neg hk, List.filter_cons_of_neg hkept]
      exact ih (i + 1) nc t (by omega)

/-- After `remove_terminated_processes` the jobs are the jobs that were not
Terminated, in their previous order, and `process_count` is their number. -/
theorem remove_terminated_processes_spec (s : State) :
    live (remove_terminated_processes s) = (live s).filter kept ∧
    (remove_terminated_processes s).process_count = ((live s).filter kept).length ∧
    (remove_terminated_processes s).history = s.history ∧
    (remove_terminated_processes s).log = s.log := by
  obtain ⟨h1, h2, -⟩ := remove_loop_spec s.process_count 0 0 s.process_table (le_refl 0)
  have hc : (remove_terminated_processes s).process_count = ((live s).filter kept).length := by
    show (remove_loop s.process_count 0 0 s.process_table).2 = _
    rw [h1]; simp [live]
  refine ⟨?_, hc, rfl, rfl⟩
  show seg (remove_loop s.process_count 0 0 s.process_table).1 0
    (remove_terminated_processes s).process_count = _
  rw [hc]
  exact h2

/-! ## One dispatch, in general -/

theorem resumes_append (l1 l2 : List Event) (p : Int) :
    resumes (l1 ++ l2) p = resumes l1 p + resumes l2 p := by
  simp [resumes, List.count_append]

theorem resumes_reap_log (TSLICE : Int) (s : State) (i : Nat) (p : Int) :
    resumes (reap_log TSLICE s i) p
      = resumes s.log p + (if p = (s.process_table i).pid then 1 else 0) := by
  by_cases hp : p = (s.process_table i).pid
  · subst hp
    simp [reap_log, resumes, List.count_append, List.count_cons]
  · have : ¬ (s.process_table i).pid = p := fun e => hp e.symm
    simp [reap_log, resumes, List.count_append, List.count_cons, hp, this]

theorem add_history_spec (env : Env) (TSLICE : Int) (s : State) (command : CStr)
    (pid start end_ status : Int) :
    ∃ (node : hnode) (new : List hnode),
      (add_history env TSLICE s command pid start end_ status).history = s.history ++ new ∧
      (new = [node] ∨ new = []) ∧
      ((∀ log, env.malloc log = true) → new = [node]) ∧
      node.command = strncpy_max command ∧ node.pid = pid ∧ node.start_time = start ∧
      node.status = status ∧
      (add_history env TSLICE s command pid start end_ status).process_table = s.process_table ∧
      (add_history env TSLICE s command pid start end_ status).process_count = s.process_count ∧
      (add_history env TSLICE s command pid start end_ status).log = s.log ++ [Event.malloc] := by
  by_cases hm : env.malloc s.log = true
  · rw [add_history_of_malloc env TSLICE s command pid start end_ status hm]
    exact ⟨_, _, rfl, Or.inl rfl, fun _ => rfl, rfl, rfl, rfl, rfl, rfl, rfl, rfl⟩
  · have e : add_history env TSLICE s command pid start end_ status
        = { s with log := s.log ++ [Event.malloc] } := by
      unfold add_history
      rw [if_neg hm]
    rw [e]
    exact ⟨⟨strncpy_max command, pid, start, 0, status⟩, [], by simp, Or.inr rfl,
      fun h => absurd (h _) hm, rfl, rfl, rfl, rfl, rfl, rfl, rfl⟩

theorem dispatch_eq_none (env : Env) (TSLICE : Int) (s : State) (i : Nat)
    (hw : env.waitpid (reap_log TSLICE s i) (s.process_table i).pid = none) :
    dispatch env TSLICE s i =
      { s with log := reap_log TSLICE s i ++
          [Event.waitpid (s.process_table i).pid,
           Event.kill (s.process_table i).pid Signal.SIGSTOP] } := by
  unfold reap_log at hw
  unfold dispatch
  simp only [hw]
  rfl

theorem dispatch_eq_some (env : Env) (TSLICE : Int) (s : State) (i : Nat) (status : Nat)
    (hw : env.waitpid (reap_log TSLICE s i) (s.process_table i).pid = some status) :
    dispatch env TSLICE s i =
      add_history env TSLICE
        { s with
          process_table := Function.update s.process_table i
            { s.process_table i with
              status := 2
              end_time := env.time (reap_log TSLICE s i ++ [Event.waitpid (s.process_table i).pid]) }
          log := reap_log TSLICE s i ++ [Event.waitpid (s.process_table i).pid] ++ [Event.time] }
        (s.process_table i).process_name (s.process_table i).pid (s.process_table i).start_time
        (env.time (reap_log TSLICE s i ++ [Event.waitpid (s.process_table i).pid]))
        (if WIFEXITED status then 0 else 1) := by
  unfold reap_log at hw
  unfold dispatch
  simp only [hw]
  rfl

theorem dispatch_process_count (env : Env) (TSLICE : Int) (s : State) (i : Nat) :
    (dispatch env TSLICE s i).process_count = s.process_count := by
  rcases hw : env.waitpid (reap_log TSLICE s i) (s.process_table i).pid with _ | status
  · rw [dispatch_eq_none env TSLICE s i hw]
  · rw [dispatch_eq_some env TSLICE s i status hw]
    obtain ⟨_, _, _, _, _, _, _, _, _, _, h, _⟩ := add_history_spec env TSLICE
      { s with
          process_table := Function.update s.process_table i
            { s.process_table i with
              status := 2
              end_time := env.time (reap_log TSLICE s i ++ [Event.waitpid (s.process_table i).pid]) }
          log := reap_log TSLICE s i ++ [Event.waitpid (s.process_table i).pid] ++ [Event.time] }
        (s.process_table i).process_name (s.process_table i).pid (s.process_table i).start_time
        (env.time (reap_log TSLICE s i ++ [Event.waitpid (s.process_table i).pid]))
        (if WIFEXITED status then 0 else 1)
    exact h

/-- One dispatch sends exactly one `SIGCONT`, to the dispatched child. -/
theorem dispatch_resumes (env : Env) (TSLICE : Int) (s : State) (i : Nat) (p : Int) :
    resumes (dispatch env TSLICE s i).log p =
      resumes s.log p + (if p = (s.process_table i).pid then 1 else 0) := by
  rcases hw : env.waitpid (reap_log TSLICE s i) (s.process_table i).pid with _ | status
  · rw [dispatch_eq_none env TSLICE s i hw]
    show resumes (reap_log TSLICE s i ++ _) p = _
    rw [resumes_append, resumes_reap_log]
    simp [resumes, List.count_cons]
  · rw [dispatch_eq_some env TSLICE s i status hw]
    obtain ⟨_, _, _, _, _, _, _, _, _, _, _, h⟩ := add_history_spec env TSLICE
      { s with
          process_table := Function.update s.process_table i
            { s.process_table i with
              status := 2
              end_time := env.time (reap_log TSLICE s i ++ [Event.waitpid (s.process_table i).pid]) }
          log := reap_log TSLICE s i ++ [Event.waitpid (s.process_table i).pid] ++ [Event.time] }
        (s.process_table i).process_name (s.process_table i).pid (s.process_table i).start_time
        (env.time (reap_log TSLICE s i ++ [Event.waitpid (s.process_table i).pid]))
        (if WIFEXITED status then 0 else 1)
    rw [h]
    show resumes (reap_log TSLICE s i ++ _ ++ _ ++ _) p = _
    rw [resumes_append, resumes_append, resumes_append, resumes_reap_log]
    simp [resumes, List.count_cons]

theorem dispatch_of_none (env : Env) (TSLICE : Int) (s : State) (i : Nat)
    (hw : env.waitpid (reap_log TSLICE s i) (s.process_table i).pid = none) :
    (dispatch env TSLICE s i).process_table = s.process_table ∧
    (dispatch env TSLICE s i).history = s.history := by
  rw [dispatch_eq_none env TSLICE s i hw]
  exact ⟨rfl, rfl⟩

/-- What `dispatch` does when `waitpid` reports the child terminated: the
entry is marked Terminated and, unless allocation fails, one record for it is
appended to the history. -/
theorem dispatch_of_some (env : Env) (TSLICE : Int) (s : State) (i : Nat) (status : Nat)
    (hw : env.waitpid (reap_log TSLICE s i) (s.process_table i).pid = some status) :
    ∃ (node : hnode) (new : List hnode) (t : Int),
      (dispatch env TSLICE s i).process_table =
        Function.update s.process_table i { s.process_table i with status := 2, end_time := t } ∧
      (dispatch env TSLICE s i).history = s.history ++ new ∧
      record_matches node (s.process_table i) ∧
      node.status = (if WIFEXITED status then 0 else 1) ∧
      (new = [node] ∨ new = []) ∧
      ((∀ log, env.malloc log = true) → new = [node]) := by
  rw [dispatch_eq_some env TSLICE s i status hw]
  obtain ⟨node, new, h1, h2, h3, h4, h5, h6, h7, h8, -, -⟩ := add_history_spec env TSLICE
      { s with
          process_table := Function.update s.process_table i
            { s.process_table i with
              status := 2
              end_time := env.time (reap_log TSLICE s i ++ [Event.waitpid (s.process_table i).pid]) }
          log := reap_log TSLICE s i ++ [Event.waitpid (s.process_table i).pid] ++ [Event.time] }
        (s.process_table i).process_name (s.process_table i).pid (s.process_table i).start_time
        (env.time (reap_log TSLICE s i ++ [Event.waitpid (s.process_table i).pid]))
        (if WIFEXITED status then 0 else 1)
  exact ⟨node, new, _, h8, h1, ⟨h4, h5, h6⟩, h7, h2, h3⟩

/-! ## A child whose `execvp` failed -/

/-- C10, counterexample. A child whose `execvp` failed is reaped with the wait
status of `exit(1)`; the record appended for it has status 0 and is printed as
`Success`, not `Failed`. -/
theorem exec_failure_counterexample :
    env_exec_fails.waitpid (reap_log 100 state_one_job 0) (state_one_job.process_table 0).pid
      = some child_exec_failure_status ∧
    (dispatch env_exec_fails 100 state_one_job 0).history.map (fun n => n.status) = [0] ∧
    (display_history_details 100 (dispatch env_exec_fails 100 state_one_job 0)).map
      (fun l => l.label) = ["Success"] := by
  decide

/-- C10, amended. When the reap of a dispatched job returns the wait status of
a child whose `execvp` failed (it called `exit(1)`), the job is marked
Terminated and, allocation succeeding, one history record is appended for it;
the record has status 0 and is printed as `Success`, because an exit with any
code is a normal exit. -/
theorem exec_failure_recorded (env : Env) (TSLICE : Int) (s : State) (i : Nat)
    (hw : env.waitpid (reap_log TSLICE s i) (s.process_table i).pid
      = some child_exec_failure_status)
    (hm : ∀ log, env.malloc log = true) :
    ((dispatch env TSLICE s i).process_table i).status = 2 ∧
    ∃ (node : hnode) (line : HistoryLine),
      (dispatch env TSLICE s i).history = s.history ++ [node] ∧
      record_matches node (s.process_table i) ∧
      node.status = 0 ∧
      display_history_details TSLICE (dispatch env TSLICE s i)
        = display_history_details TSLICE s ++ [line] ∧
      line.pid = (s.process_table i).pid ∧
      line.label = "Success" := by
  obtain ⟨node, new, t, ht, hh, hmatch, hst, -, hnew⟩ :=
    dispatch_of_some env TSLICE s i _ hw
  rw [hnew hm] at hh
  have hst0 : node.status = 0 := by
    rw [hst]
    decide
  refine ⟨by rw [ht]; simp, node, display_node TSLICE (1 + s.history.length) node, hh, hmatch,
    hst0, ?_, hmatch.2.1, ?_⟩
  · simp only [display_history_details, hh, display_loop_append]
  · simp [display_node, hst0]

/-- Witness for C10 amended: the single job of `state_one_job`, reaped after an
`execvp` failure. -/
theorem exec_failure_recorded_witness :
    (env_exec_fails.waitpid (reap_log 100 state_one_job 0) (state_one_job.process_table 0).pid
      = some child_exec_failure_status ∧
     ∀ log, env_exec_fails.malloc log = true) ∧
    ((dispatch env_exec_fails 100 state_one_job 0).process_table 0).status = 2 ∧
    ∃ (node : hnode) (line : HistoryLine),
      (dispatch env_exec_fails 100 state_one_job 0).history = state_one_job.history ++ [node] ∧
      record_matches node (state_one_job.process_table 0) ∧
      node.status = 0 ∧
      display_history_details 100 (dispatch env_exec_fails 100 state_one_job 0)
        = display_history_details 100 state_one_job ++ [line] ∧
      line.pid = (state_one_job.process_table 0).pid ∧
      line.label = "Success" :=
  ⟨⟨rfl, fun _ => rfl⟩,
   exec_failure_recorded env_exec_fails 100 state_one_job 0 rfl (fun _ => rfl)⟩

/-! ## The dispatch loop -/

theorem dispatch_table_cases (env : Env) (TSLICE : Int) (s : State) (i : Nat) :
    (dispatch env TSLICE s i).process_table = s.process_table ∨
    ∃ t, (dispatch env TSLICE s i).process_table =
      Function.update s.process_table i { s.process_table i with status := 2, end_time := t } := by
  rcases hw : env.waitpid (reap_log TSLICE s i) (s.process_table i).pid with _ | status
  · exact Or.inl (dispatch_of_none env TSLICE s i hw).1
  · obtain ⟨_, _, t, h, _⟩ := dispatch_of_some env TSLICE s i status hw
    exact Or.inr ⟨t, h⟩

theorem dispatch_table_outside (env : Env) (TSLICE : Int) (s : State) (i a : Nat) (h : a ≠ i) :
    (dispatch env TSLICE s i).process_table a = s.process_table a := by
  rcases dispatch_table_cases env TSLICE s i with e | ⟨t, e⟩
  · rw [e]
  · rw [e]; simp [Function.update, h]

theorem dispatch_table_at (env : Env) (TSLICE : Int) (s : State) (i a : Nat) :
    ((dispatch env TSLICE s i).process_table a).pid = (s.process_table a).pid ∧
    ((dispatch env TSLICE s i).process_table a = s.process_table a ∨
     ((dispatch env TSLICE s i).process_table a).status = 2) := by
  rcases dispatch_table_cases env TSLICE s i with e | ⟨t, e⟩
  · rw [e]; exact ⟨rfl, Or.inl rfl⟩
  · rw [e]
    by_cases h : a = i
    · subst h; simp
    · simp [Function.update, h]

/-- What the dispatch loop leaves alone: `process_count`, the entries outside
`i .. i+k-1`, every pid; an entry is either unchanged or marked Terminated;
and the number of resumes of a child never decreases. -/
theorem dispatch_loop_frame (env : Env) (NCPU TSLICE : Int) (k i rj : Nat) (s : State) :
    (dispatch_loop env NCPU TSLICE k i rj s).process_count = s.process_count ∧
    (∀ p, resumes s.log p ≤ resumes (dispatch_loop env NCPU TSLICE k i rj s).log p) ∧
    (∀ a, (a < i ∨ i + k ≤ a) →
      (dispatch_loop env NCPU TSLICE k i rj s).process_table a = s.process_table a) ∧
    (∀ a, ((dispatch_loop env NCPU TSLICE k i rj s).process_table a).pid = (s.process_table a).pid ∧
      ((dispatch_loop env NCPU TSLICE k i rj s).process_table a = s.process_table a ∨
       ((dispatch_loop env NCPU TSLICE k i rj s).process_table a).status = 2)) := by
  induction k generalizing i rj s with
  | zero => simp [dispatch_loop]
  | succ k ih =>
    simp only [dispatch_loop]
    split_ifs with h1 h2
    · obtain ⟨g1, g2, g3, g4⟩ := ih (i + 1) (rj + 1) (dispatch env TSLICE s i)
      refine ⟨by rw [g1, dispatch_process_count], fun p => ?_, fun a ha => ?_, fun a => ?_⟩
      · refine le_trans ?_ (g2 p)
        rw [dispatch_resumes]
        omega
      · rw [g3 a (by omega), dispatch_table_outside env TSLICE s i a (by omega)]
      · obtain ⟨d1, d2⟩ := dispatch_table_at env TSLICE s i a
        obtain ⟨e1, e2⟩ := g4 a
        refine ⟨by rw [e1, d1], ?_⟩
        rcases e2 with e2 | e2
        · rw [e2]; exact d2
        · exact Or.inr e2
    · obtain ⟨g1, g2, g3, g4⟩ := ih (i + 1) rj s
      exact ⟨g1, g2, fun a ha => g3 a (by omega), g4⟩
    · exact ⟨rfl, fun p => le_refl _, fun a _ => rfl, fun a => ⟨rfl, Or.inl rfl⟩⟩

/-! ## Progress of the dispatch loop -/

theorem weight_mono (Q : Int → Nat) (log log2 : List Event) (p : process)
    (h : resumes log p.pid ≤ resumes log2 p.pid) : weight Q log2 p ≤ weight Q log p := by
  unfold weight
  omega

theorem weight_pos (Q : Int → Nat) (log : List Event) (p : process) : 0 < weight Q log p := by
  unfold weight
  omega

theorem work_left_mono (Q : Int → Nat) (log log2 : List Event) (l : List process)
    (h : ∀ p, resumes log p ≤ resumes log2 p) : work_left Q log2 l ≤ work_left Q log l := by
  induction l with
  | nil => simp [work_left]
  | cons x xs ih =>
    simp only [work_left, List.map_cons, List.sum_cons] at ih ⊢
    exact Nat.add_le_add (weight_mono Q log log2 x (h _)) ih

theorem work_left_filter_le (Q : Int → Nat) (log : List Event) (l : List process) :
    work_left Q log (l.filter kept) ≤ work_left Q log l := by
  induction l with
  | nil => simp [work_left]
  | cons x xs ih =>
    rw [List.filter_cons]
    simp only [work_left, List.map_cons, List.sum_cons] at ih ⊢
    split_ifs
    · simp only [List.map_cons, List.sum_cons]; omega
    · omega

theorem work_left_cons (Q : Int → Nat) (log : List Event) (x : process) (l : List process) :
    work_left Q log (x :: l) = weight Q log x + work_left Q log l := by
  simp [work_left]

theorem work_left_perm (Q : Int → Nat) (log : List Event) (l1 l2 : List process)
    (h : List.Perm l1 l2) : work_left Q log l1 = work_left Q log l2 := by
  unfold work_left
  exact (h.map _).sum_eq

/-- The dispatch loop never increases the work left on the entries it walks
over, and decreases it when it dispatches the first of them. -/
theorem dispatch_loop_work (env : Env) (NCPU TSLICE : Int) (Q : Int → Nat)
    (hq : ∀ log pid, Q pid ≤ resumes log pid → (env.waitpid log pid).isSome = true)
    (k i rj : Nat) (s : State) :
    work_left Q (dispatch_loop env NCPU TSLICE k i rj s).log
        ((seg (dispatch_loop env NCPU TSLICE k i rj s).process_table i k).filter kept)
      ≤ work_left Q s.log (seg s.process_table i k) ∧
    (0 < k → (rj : Int) < NCPU → (s.process_table i).status = 1 →
      work_left Q (dispatch_loop env NCPU TSLICE k i rj s).log
          ((seg (dispatch_loop env NCPU TSLICE k i rj s).process_table i k).filter kept)
        < work_left Q s.log (seg s.process_table i k)) := by
  induction k generalizing i rj s with
  | zero => simp [dispatch_loop, work_left]
  | succ k ih =>
    have hframe := fun rj' s' => dispatch_loop_frame env NCPU TSLICE k (i + 1) rj' s'
    have key : (rj : Int) < NCPU → (s.process_table i).status = 1 →
        work_left Q (dispatch_loop env NCPU TSLICE k (i + 1) (rj + 1) (dispatch env TSLICE s i)).log
          ((seg (dispatch_loop env NCPU TSLICE k (i + 1) (rj + 1)
            (dispatch env TSLICE s i)).process_table i (k + 1)).filter kept)
        < work_left Q s.log (seg s.process_table i (k + 1)) := by
      intro h1 h2
      obtain ⟨-, f2, f3, -⟩ := hframe (rj + 1) (dispatch env TSLICE s i)
      have hrest := (ih (i + 1) (rj + 1) (dispatch env TSLICE s i)).1
      have hlog : ∀ p, resumes s.log p ≤ resumes (dispatch env TSLICE s i).log p := by
        intro p; rw [dispatch_resumes]; omega
      rw [seg_succ, seg_succ, f3 i (Or.inl (by omega)), work_left_cons]
      rcases hw : env.waitpid (reap_log TSLICE s i) (s.process_table i).pid with _ | status
      · obtain ⟨e1, -⟩ := dispatch_of_none env TSLICE s i hw
        rw [e1] at hrest ⊢
        have hlt : resumes s.log (s.process_table i).pid + 1 < Q (s.process_table i).pid := by
          by_contra hcon
          have := hq (reap_log TSLICE s i) (s.process_table i).pid
            (by rw [resumes_reap_log]; simp; omega)
          rw [hw] at this
          simp at this
        have hr1 : resumes s.log (s.process_table i).pid + 1
            ≤ resumes (dispatch env TSLICE s i).log (s.process_table i).pid := by
          rw [dispatch_resumes]; simp
        have hr2 := f2 (s.process_table i).pid
        have hw2 : weight Q (dispatch_loop env NCPU TSLICE k (i + 1) (rj + 1)
            (dispatch env TSLICE s i)).log (s.process_table i) < weight Q s.log (s.process_table i) := by
          unfold weight
          omega
        have hmono := work_left_mono Q s.log (dispatch env TSLICE s i).log
          (seg s.process_table (i + 1) k) hlog
        rw [List.filter_cons]
        split_ifs
        · rw [work_left_cons]; omega
        · omega
      · obtain ⟨node, new, t, e1, -⟩ := dispatch_of_some env TSLICE s i status hw
        have es : seg (dispatch env TSLICE s i).process_table (i + 1) k
            = seg s.process_table (i + 1) k := by
          rw [e1]; exact seg_update_outside _ _ _ _ _ (Or.inl (by omega))
        rw [es] at hrest
        have hnk : ¬ kept ((dispatch env TSLICE s i).process_table i) = true := by
          rw [e1, kept_iff]; simp
        rw [List.filter_cons, if_neg hnk]
        have hmono := work_left_mono Q s.log (dispatch env TSLICE s i).log
          (seg s.process_table (i + 1) k) hlog
        have := weight_pos Q s.log (s.process_table i)
        omega
    simp only [dispatch_loop]
    split_ifs with h1 h2
    · exact ⟨le_of_lt (key h1 h2), fun _ _ _ => key h1 h2⟩
    · refine ⟨?_, fun _ _ h => absurd h h2⟩
      obtain ⟨-, f2, f3, -⟩ := hframe rj s
      have hrest := (ih (i + 1) rj s).1
      rw [seg_succ, seg_succ, f3 i (Or.inl (by omega)), work_left_cons, List.filter_cons]
      have hw2 := weight_mono Q s.log (dispatch_loop env NCPU TSLICE k (i + 1) rj s).log
        (s.process_table i) (f2 _)
      split_ifs
      · rw [work_left_cons]; omega
      · omega
    · exact ⟨work_left_filter_le Q s.log _, fun _ h => absurd h h1⟩

/-! ## Every terminated job gets one record -/

theorem record_key_of_matches (node : hnode) (p : process) (h : record_matches node p) :
    record_key node = job_key p := by
  obtain ⟨h1, h2, h3⟩ := h
  simp [record_key, job_key, h1, h2, h3]

/-- With allocation succeeding, the records written so far together with the
entries not yet Terminated make up the same collection of jobs before and
after the dispatch loop; and the loop only appends to the history. -/
theorem dispatch_loop_records (env : Env) (NCPU TSLICE : Int) (hm : ∀ log, env.malloc log = true)
    (k i rj : Nat) (s : State) :
    (∃ new, (dispatch_loop env NCPU TSLICE k i rj s).history = s.history ++ new) ∧
    List.Perm
      ((dispatch_loop env NCPU TSLICE k i rj s).history.map record_key ++
        ((seg (dispatch_loop env NCPU TSLICE k i rj s).process_table i k).filter kept).map job_key)
      (s.history.map record_key ++ ((seg s.process_table i k).filter kept).map job_key) := by
  induction k generalizing i rj s with
  | zero => exact ⟨⟨[], by simp [dispatch_loop]⟩, by simp [dispatch_loop]⟩
  | succ k ih =>
    have hframe := fun rj' s' => (dispatch_loop_frame env NCPU TSLICE k (i + 1) rj' s').2.2.1 i
      (Or.inl (by omega))
    simp only [dispatch_loop]
    split_ifs with h1 h2
    · rw [seg_succ, seg_succ, hframe, List.filter_cons, List.filter_cons]
      have hk : kept (s.process_table i) = true := (kept_iff _).mpr (by rw [h2]; decide)
      rw [if_pos hk]
      obtain ⟨⟨new, hnew⟩, hperm⟩ := ih (i + 1) (rj + 1) (dispatch env TSLICE s i)
      rcases hw : env.waitpid (reap_log TSLICE s i) (s.process_table i).pid with _ | status
      · obtain ⟨e1, e2⟩ := dispatch_of_none env TSLICE s i hw
        rw [e1, e2] at hperm
        rw [e2] at hnew
        rw [e1, if_pos hk]
        refine ⟨⟨new, hnew⟩, ?_⟩
        simp only [List.map_cons]
        exact (List.perm_middle.trans ((hperm.cons _).trans List.perm_middle.symm))
      · obtain ⟨node, new1, t, e1, e2, e3, -, -, e4⟩ := dispatch_of_some env TSLICE s i status hw
        rw [e4 hm] at e2
        have es : seg (dispatch env TSLICE s i).process_table (i + 1) k
            = seg s.process_table (i + 1) k := by
          rw [e1]; exact seg_update_outside _ _ _ _ _ (Or.inl (by omega))
        rw [es, e2] at hperm
        rw [e2] at hnew
        have hnk : ¬ kept ((dispatch env TSLICE s i).process_table i) = true := by
          rw [e1, kept_iff]; simp
        rw [if_neg hnk]
        refine ⟨⟨[node] ++ new, by rw [hnew, List.append_assoc]⟩, ?_⟩
        refine hperm.trans ?_
        rw [List.map_append, List.map_cons, List.map_nil, List.map_cons,
          record_key_of_matches node _ e3, List.append_assoc]
        rfl
    · rw [seg_succ, seg_succ, hframe, List.filter_cons, List.filter_cons]
      obtain ⟨hnew, hperm⟩ := ih (i + 1) rj s
      refine ⟨hnew, ?_⟩
      split_ifs
      · simp only [List.map_cons]
        exact (List.perm_middle.trans ((hperm.cons _).trans List.perm_middle.symm))
      · exact hperm
    · exact ⟨⟨[], by simp⟩, List.Perm.refl _⟩

theorem filter_kept_of_ready (l : List process) (h : ∀ p ∈ l, p.status = 1) :
    l.filter kept = l := by
  rw [List.filter_eq_self]
  intro p hp
  rw [kept_iff, h p hp]
  decide

/-- One iteration of the scheduler loop, with allocation succeeding and all
jobs Ready at its start: the history is extended, the jobs recorded so far
together with the jobs left in the table are the same collection as before,
and every job left in the table is Ready. -/
theorem scheduler_iteration_records (env : Env) (NCPU TSLICE : Int)
    (hm : ∀ log, env.malloc log = true) (s : State) (hready : ∀ p ∈ live s, p.status = 1) :
    (∃ new, (scheduler_iteration env NCPU TSLICE s).history = s.history ++ new) ∧
    List.Perm
      ((scheduler_iteration env NCPU TSLICE s).history.map record_key ++
        (live (scheduler_iteration env NCPU TSLICE s)).map job_key)
      (s.history.map record_key ++ (live s).map job_key) ∧
    (∀ p ∈ live (scheduler_iteration env NCPU TSLICE s), p.status = 1) := by
  obtain ⟨-, hsp, hsc, hsh, -⟩ := sort_by_priority_spec s
  have hready1 : ∀ p ∈ live (sort_by_priority s), p.status = 1 :=
    fun p hp => hready p (hsp.subset hp)
  obtain ⟨hnew, hperm⟩ := dispatch_loop_records env NCPU TSLICE hm
    (sort_by_priority s).process_count 0 0 (sort_by_priority s)
  obtain ⟨f1, -, -, f4⟩ := dispatch_loop_frame env NCPU TSLICE
    (sort_by_priority s).process_count 0 0 (sort_by_priority s)
  obtain ⟨r1, -, r3, -⟩ := remove_terminated_processes_spec
    (dispatch_loop env NCPU TSLICE (sort_by_priority s).process_count 0 0 (sort_by_priority s))
  have elive : live (dispatch_loop env NCPU TSLICE (sort_by_priority s).process_count 0 0
      (sort_by_priority s)) = seg (dispatch_loop env NCPU TSLICE (sort_by_priority s).process_count
      0 0 (sort_by_priority s)).process_table 0 (sort_by_priority s).process_count := by
    unfold live; rw [f1]
  unfold scheduler_iteration
  simp only
  rw [r1, r3, elive]
  refine ⟨by rw [← hsh]; exact hnew, ?_, ?_⟩
  · refine hperm.trans ?_
    rw [hsh]
    refine List.Perm.append_left _ ?_
    have : seg (sort_by_priority s).process_table 0 (sort_by_priority s).process_count
        = live (sort_by_priority s) := rfl
    rw [this, filter_kept_of_ready _ hready1]
    exact hsp.map _
  · intro p hp
    rw [List.mem_filter, kept_iff] at hp
    obtain ⟨hp1, hp2⟩ := hp
    obtain ⟨a, ha1, ha2, rfl⟩ := (mem_seg _ _ _ _).mp hp1
    rcases (f4 a).2 with e | e
    · rw [e]
      exact hready1 _ ((mem_seg _ _ _ _).mpr ⟨a, ha1, ha2, rfl⟩)
    · exact absurd e hp2

theorem live_nil_of_count_zero (s : State) (h : s.process_count = 0) : live s = [] := by
  unfold live; rw [h]; rfl

theorem scheduler_records (env : Env) (NCPU TSLICE : Int) (hm : ∀ log, env.malloc log = true)
    (fuel : Nat) (s s' : State) (hready : ∀ p ∈ live s, p.status = 1)
    (hrun : scheduler env NCPU TSLICE fuel s = some s') :
    s'.process_count = 0 ∧
    ∃ new, s'.history = s.history ++ new ∧ List.Perm (new.map record_key) ((live s).map job_key) := by
  induction fuel generalizing s with
  | zero =>
    simp only [scheduler] at hrun
    split_ifs at hrun with h
    injection hrun with e
    subst e
    have h0 : s.process_count = 0 := by omega
    exact ⟨h0, [], by simp, by simp [live_nil_of_count_zero s h0]⟩
  | succ fuel ih =>
    simp only [scheduler] at hrun
    split_ifs at hrun with h
    · obtain ⟨⟨new1, hnew1⟩, hperm, hready'⟩ :=
        scheduler_iteration_records env NCPU TSLICE hm s hready
      obtain ⟨h0, new2, hnew2, hperm2⟩ := ih _ hready' hrun
      refine ⟨h0, new1 ++ new2, by rw [hnew2, hnew1, List.append_assoc], ?_⟩
      rw [hnew1] at hperm
      rw [List.map_append, List.append_assoc] at hperm
      have h3 := (List.perm_append_left_iff _).mp hperm
      rw [List.map_append]
      exact (List.Perm.append_left _ hperm2).trans h3
    · injection hrun with e
      subst e
      have h0 : s.process_count = 0 := by omega
      exact ⟨h0, [], by simp, by simp [live_nil_of_count_zero s h0]⟩

/-- C4. With history-node allocation succeeding and all jobs in the table
Ready: (1) one iteration of the scheduler loop keeps
`history length + process_count` constant, only appends to the history, and
leaves only Ready jobs in the table (a job marked Terminated is recorded and
removed in that same iteration); (2) every run of `scheduler` that returns
ends with an empty table and has appended exactly `process_count` records, one
for each job of the table (same name, pid and submit time). -/
theorem history_one_record_per_job (env : Env) (NCPU TSLICE : Int) (s : State)
    (hm : ∀ log, env.malloc log = true)
    (hready : ∀ i, i < s.process_count → (s.process_table i).status = 1) :
    ((scheduler_iteration env NCPU TSLICE s).history.length +
        (scheduler_iteration env NCPU TSLICE s).process_count
      = s.history.length + s.process_count ∧
     (∃ new, (scheduler_iteration env NCPU TSLICE s).history = s.history ++ new) ∧
     ∀ i, i < (scheduler_iteration env NCPU TSLICE s).process_count →
       ((scheduler_iteration env NCPU TSLICE s).process_table i).status = 1) ∧
    ∀ fuel s', scheduler env NCPU TSLICE fuel s = some s' →
      s'.process_count = 0 ∧
      ∃ new, s'.history = s.history ++ new ∧ new.length = s.process_count ∧
        List.Perm (new.map record_key) ((live s).map job_key) := by
  have hready' : ∀ p ∈ live s, p.status = 1 := by
    intro p hp
    obtain ⟨a, -, ha, rfl⟩ := (mem_seg _ _ _ _).mp hp
    exact hready a (by omega)
  refine ⟨?_, fun fuel s' hrun => ?_⟩
  · obtain ⟨hnew, hperm, hr⟩ := scheduler_iteration_records env NCPU TSLICE hm s hready'
    refine ⟨?_, hnew, fun i hi => hr _ ((mem_seg _ _ _ _).mpr ⟨i, Nat.zero_le i, by omega, rfl⟩)⟩
    have := hperm.length_eq
    simp only [List.length_append, List.length_map, live, length_seg] at this
    exact this
  · obtain ⟨h0, new, hnew, hperm⟩ := scheduler_records env NCPU TSLICE hm fuel s s' hready' hrun
    refine ⟨h0, new, hnew, ?_, hperm⟩
    have := hperm.length_eq
    simpa [live] using this

/-- Witness for C4: the two-job table of scenario S1 drained with `NCPU = 1`;
the run returns within two iterations and has appended two records. -/
theorem history_one_record_per_job_witness :
    (∀ i, i < state_two_jobs.process_count → (state_two_jobs.process_table i).status = 1) ∧
    ∃ s', scheduler env_ok 1 100 2 state_two_jobs = some s' ∧
      s'.process_count = 0 ∧
      ∃ new : List hnode, s'.history = state_two_jobs.history ++ new ∧
        new.length = state_two_jobs.process_count ∧
        List.Perm (new.map record_key) ((live state_two_jobs).map job_key) :=
  ⟨by decide, _, rfl,
   (history_one_record_per_job env_ok 1 100 state_two_jobs (fun _ => rfl) (by decide)).2 2 _ rfl⟩

/-! ## Termination of the scheduler -/

theorem scheduler_of_count_zero (env : Env) (NCPU TSLICE : Int) (fuel : Nat) (s : State)
    (h : s.process_count = 0) : scheduler env NCPU TSLICE fuel s = some s := by
  cases fuel <;> simp [scheduler, h]

theorem work_left_pos (Q : Int → Nat) (log : List Event) (x : process) (l : List process) :
    0 < work_left Q log (x :: l) := by
  rw [work_left_cons]
  have := weight_pos Q log x
  omega

/-- One iteration of the scheduler loop with `NCPU ≥ 1`, a non-empty table of
Ready jobs, and children that terminate after at most `Q pid` quanta: the work
left decreases, and the jobs left are Ready. -/
theorem scheduler_iteration_progress (env : Env) (NCPU TSLICE : Int) (Q : Int → Nat)
    (hN : 1 ≤ NCPU)
    (hq : ∀ log pid, Q pid ≤ resumes log pid → (env.waitpid log pid).isSome = true)
    (s : State) (hpos : 0 < s.process_count) (hready : ∀ p ∈ live s, p.status = 1) :
    work_left Q (scheduler_iteration env NCPU TSLICE s).log
        (live (scheduler_iteration env NCPU TSLICE s))
      < work_left Q s.log (live s) ∧
    (∀ p ∈ live (scheduler_iteration env NCPU TSLICE s), p.status = 1) := by
  obtain ⟨-, hsp, hsc, -, hsl⟩ := sort_by_priority_spec s
  have hready1 : ∀ p ∈ live (sort_by_priority s), p.status = 1 :=
    fun p hp => hready p (hsp.subset hp)
  have h0 : ((sort_by_priority s).process_table 0).status = 1 :=
    hready1 _ ((mem_seg _ _ _ _).mpr ⟨0, le_refl 0, by rw [hsc]; omega, rfl⟩)
  have hwork := (dispatch_loop_work env NCPU TSLICE Q hq (sort_by_priority s).process_count 0 0
    (sort_by_priority s)).2 (by rw [hsc]; exact hpos) (by simpa using hN) h0
  obtain ⟨f1, -, -, f4⟩ := dispatch_loop_frame env NCPU TSLICE
    (sort_by_priority s).process_count 0 0 (sort_by_priority s)
  obtain ⟨r1, -, -, r4⟩ := remove_terminated_processes_spec
    (dispatch_loop env NCPU TSLICE (sort_by_priority s).process_count 0 0 (sort_by_priority s))
  have elive : live (dispatch_loop env NCPU TSLICE (sort_by_priority s).process_count 0 0
      (sort_by_priority s)) = seg (dispatch_loop env NCPU TSLICE (sort_by_priority s).process_count
      0 0 (sort_by_priority s)).process_table 0 (sort_by_priority s).process_count := by
    unfold live; rw [f1]
  unfold scheduler_iteration
  simp only
  rw [r1, r4, elive]
  refine ⟨?_, ?_⟩
  · refine lt_of_lt_of_le hwork (le_of_eq ?_)
    rw [hsl]
    exact work_left_perm Q s.log _ _ hsp
  · intro p hp
    rw [List.mem_filter, kept_iff] at hp
    obtain ⟨hp1, hp2⟩ := hp
    obtain ⟨a, ha1, ha2, rfl⟩ := (mem_seg _ _ _ _).mp hp1
    rcases (f4 a).2 with e | e
    · rw [e]
      exact hready1 _ ((mem_seg _ _ _ _).mpr ⟨a, ha1, ha2, rfl⟩)
    · exact absurd e hp2

theorem scheduler_terminates_within (env : Env) (NCPU TSLICE : Int) (Q : Int → Nat)
    (hN : 1 ≤ NCPU)
    (hq : ∀ log pid, Q pid ≤ resumes log pid → (env.waitpid log pid).isSome = true)
    (fuel : Nat) (s : State) (hfuel : work_left Q s.log (live s) ≤ fuel)
    (hready : ∀ p ∈ live s, p.status = 1) :
    ∃ s', scheduler env NCPU TSLICE fuel s = some s' ∧ s'.process_count = 0 := by
  induction fuel generalizing s with
  | zero =>
    rcases Nat.eq_zero_or_pos s.process_count with h0 | hpos
    · exact ⟨s, scheduler_of_count_zero env NCPU TSLICE 0 s h0, h0⟩
    · exfalso
      have : live s = s.process_table 0 :: seg s.process_table 1 (s.process_count - 1) := by
        unfold live
        rw [show s.process_count = (s.process_count - 1) + 1 by omega, seg_succ]
        simp
      have hp := work_left_pos Q s.log (s.process_table 0)
        (seg s.process_table 1 (s.process_count - 1))
      rw [← this] at hp
      omega
  | succ fuel ih =>
    rcases Nat.eq_zero_or_pos s.process_count with h0 | hpos
    · exact ⟨s, scheduler_of_count_zero env NCPU TSLICE _ s h0, h0⟩
    · obtain ⟨hlt, hr⟩ := scheduler_iteration_progress env NCPU TSLICE Q hN hq s hpos hready
      obtain ⟨s', hs', h0⟩ := ih (scheduler_iteration env NCPU TSLICE s) (by omega) hr
      refine ⟨s', ?_, h0⟩
      simp only [scheduler]
      rw [if_pos hpos]
      exact hs'

/-- C3, counterexample. `main` accepts the command line `prog 0 100`, setting
`NCPU = 0`; with one Ready job in the table the scheduler loop then never
exits: no amount of fuel makes `scheduler` return. -/
theorem scheduler_ncpu_zero_counterexample :
    main_config ["prog".toList, "0".toList, "100".toList] = some (0, 100) ∧
    (∀ i, i < state_one_job.process_count → (state_one_job.process_table i).status = 1) ∧
    ∀ fuel, scheduler env_ok 0 100 fuel state_one_job = none := by
  refine ⟨by decide, by decide, ?_⟩
  have hiter : scheduler_iteration env_ok 0 100 state_one_job = state_one_job := by
    have ht : Function.update state_one_job.process_table 0 (state_one_job.process_table 0)
        = state_one_job.process_table := Function.update_eq_self _ _
    show ({ process_table := Function.update state_one_job.process_table 0
              (state_one_job.process_table 0),
            process_count := 1, history := [], log := [] } : State) = state_one_job
    rw [ht]
    rfl
  intro fuel
  induction fuel with
  | zero => rfl
  | succ fuel ih =>
    simp only [scheduler]
    rw [if_pos (by decide), hiter]
    exact ih

/-- C3, amended. For every `NCPU ≥ 1`, every `TSLICE`, every table of Ready
jobs (of any size, in particular at most 100) and every environment in which
each child `pid` has terminated once it has been given `Q pid` quanta,
`scheduler` returns, and `process_count = 0` when it does. -/
theorem scheduler_terminates (env : Env) (NCPU TSLICE : Int) (Q : Int → Nat) (s : State)
    (hN : 1 ≤ NCPU)
    (hready : ∀ i, i < s.process_count → (s.process_table i).status = 1)
    (hq : ∀ log pid, Q pid ≤ resumes log pid → (env.waitpid log pid).isSome = true) :
    ∃ fuel s', scheduler env NCPU TSLICE fuel s = some s' ∧ s'.process_count = 0 := by
  have hready' : ∀ p ∈ live s, p.status = 1 := by
    intro p hp
    obtain ⟨a, -, ha, rfl⟩ := (mem_seg _ _ _ _).mp hp
    exact hready a (by omega)
  exact ⟨_, scheduler_terminates_within env NCPU TSLICE Q hN hq _ s (le_refl _) hready'⟩

/-- Witness for C3 amended: two Ready jobs whose children each need two
quanta, `NCPU = 1`. -/
theorem scheduler_terminates_witness :
    (1 : Int) ≤ 1 ∧
    (∀ i, i < state_two_jobs.process_count → (state_two_jobs.process_table i).status = 1) ∧
    (∀ log pid, 2 ≤ resumes log pid → (env_two_quanta.waitpid log pid).isSome = true) ∧
    ∃ fuel s', scheduler env_two_quanta 1 100 fuel state_two_jobs = some s' ∧
      s'.process_count = 0 :=
  have hq : ∀ log pid, 2 ≤ resumes log pid → (env_two_quanta.waitpid log pid).isSome = true := by
    intro log pid h
    show (if 2 ≤ resumes log pid then some 0 else none : Option Nat).isSome = true
    rw [if_pos h]
    rfl
  ⟨by decide, by decide, hq,
   scheduler_terminates env_two_quanta 1 100 (fun _ => 2) state_two_jobs (by decide) (by decide) hq⟩

/-! ## Children that terminate in their first quantum -/

theorem seg_split (t : Nat → process) (m n : Nat) (h : m ≤ n) :
    seg t 0 n = seg t 0 m ++ seg t m (n - m) := by
  have e : n = m + (n - m) := by omega
  conv_lhs => rw [e]
  rw [seg_add, Nat.zero_add]

/-- The dispatch loop when every resumed child is found terminated: with a
budget of `b` more dispatches, the first `min k b` entries from `i` on are
marked Terminated, the others are untouched, and the records appended are
those of these entries, in table order (all of them when allocation
succeeds). -/
theorem dispatch_loop_all_reaped (env : Env) (NCPU TSLICE : Int)
    (hq : ∀ log pid, 1 ≤ resumes log pid → (env.waitpid log pid).isSome = true)
    (k i rj b : Nat) (s : State) (hb : (rj : Int) + (b : Int) = NCPU)
    (hready : ∀ a, i ≤ a → a < i + k → (s.process_table a).status = 1) :
    (∀ a, i ≤ a → a < i + min k b →
      ((dispatch_loop env NCPU TSLICE k i rj s).process_table a).status = 2) ∧
    (∀ a, (a < i ∨ i + min k b ≤ a) →
      (dispatch_loop env NCPU TSLICE k i rj s).process_table a = s.process_table a) ∧
    ∃ (jobs : List process) (new : List hnode),
      (dispatch_loop env NCPU TSLICE k i rj s).history = s.history ++ new ∧
      new.map record_key = jobs.map job_key ∧
      jobs.Sublist (seg s.process_table i (min k b)) ∧
      ((∀ log, env.malloc log = true) → jobs = seg s.process_table i (min k b)) := by
  induction k generalizing i rj b s with
  | zero =>
    simp only [dispatch_loop, Nat.zero_min, Nat.add_zero, seg_zero]
    refine ⟨fun a h1 h2 => by omega, fun a _ => trivial, [], [], ?_, ?_, ?_, ?_⟩ <;> simp
  | succ k ih =>
    cases b with
    | zero =>
      have hnot : ¬ (rj : Int) < NCPU := by omega
      simp only [dispatch_loop, if_neg hnot, Nat.min_zero, Nat.add_zero, seg_zero]
      refine ⟨fun a h1 h2 => by omega, fun a _ => trivial, [], [], ?_, ?_, ?_, ?_⟩ <;> simp
    | succ b =>
      have hlt : (rj : Int) < NCPU := by omega
      have hst : (s.process_table i).status = 1 := hready i (le_refl i) (by omega)
      have hmin : min (k + 1) (b + 1) = min k b + 1 := by omega
      simp only [dispatch_loop, if_pos hlt, if_pos hst]
      rw [hmin]
      have hsome := hq (reap_log TSLICE s i) (s.process_table i).pid
        (by rw [resumes_reap_log]; simp)
      obtain ⟨status, hw⟩ := Option.isSome_iff_exists.mp hsome
      obtain ⟨node, new1, t, e1, e2, e3, -, e5, e6⟩ := dispatch_of_some env TSLICE s i status hw
      have hready1 : ∀ a, i + 1 ≤ a → a < i + 1 + k →
          ((dispatch env TSLICE s i).process_table a).status = 1 := by
        intro a h1 h2
        rw [dispatch_table_outside env TSLICE s i a (by omega)]
        exact hready a (by omega) (by omega)
      obtain ⟨g1, g2, jobs, new, g3, g4, g5, g6⟩ := ih (i + 1) (rj + 1) b (dispatch env TSLICE s i)
        (by push_cast; omega) hready1
      have es : seg (dispatch env TSLICE s i).process_table (i + 1) (min k b)
          = seg s.process_table (i + 1) (min k b) := by
        rw [e1]; exact seg_update_outside _ _ _ _ _ (Or.inl (by omega))
      rw [es] at g5 g6
      refine ⟨fun a h1 h2 => ?_, fun a ha => ?_, ?_⟩
      · by_cases hai : a = i
        · subst hai
          rw [g2 a (Or.inl (by omega)), e1]
          simp
        · exact g1 a (by omega) (by omega)
      · rw [g2 a (by omega), dispatch_table_outside env TSLICE s i a (by omega)]
      · rw [seg_succ]
        rcases e5 with e5 | e5
        · refine ⟨s.process_table i :: jobs, node :: new, ?_, ?_, g5.cons₂ _, fun hm => ?_⟩
          · rw [g3, e2, e5]; simp
          · simp only [List.map_cons, g4, record_key_of_matches node _ e3]
          · rw [g6 hm]
        · refine ⟨jobs, new, ?_, g4, g5.cons _, fun hm => ?_⟩
          · rw [g3, e2, e5]; simp
          · have := e6 hm
            rw [e5] at this
            exact absurd this (by simp)

theorem scheduler_iteration_sort (env : Env) (NCPU TSLICE : Int) (s : State) :
    scheduler_iteration env NCPU TSLICE (sort_by_priority s)
      = scheduler_iteration env NCPU TSLICE s := by
  unfold scheduler_iteration
  rw [sort_by_priority_idem]

theorem scheduler_sort (env : Env) (NCPU TSLICE : Int) (fuel : Nat) (s : State) :
    scheduler env NCPU TSLICE fuel (sort_by_priority s) = scheduler env NCPU TSLICE fuel s := by
  have hc : (sort_by_priority s).process_count = s.process_count := rfl
  cases fuel with
  | zero =>
    simp only [scheduler, hc]
    split_ifs with h
    · rfl
    · have ht : ∀ t : Nat → process, sort_outer s.process_count (s.process_count - 1) 0 t = t := by
        intro t
        have h0 : s.process_count = 0 := by omega
        rw [h0]; rfl
      unfold sort_by_priority
      rw [ht]
  | succ fuel =>
    simp only [scheduler, hc, scheduler_iteration_sort]
    split_ifs with h
    · rfl
    · have ht : ∀ t : Nat → process, sort_outer s.process_count (s.process_count - 1) 0 t = t := by
        intro t
        have h0 : s.process_count = 0 := by omega
        rw [h0]; rfl
      unfold sort_by_priority
      rw [ht]

/-- A run of the scheduler from a table already in priority order, with
`NCPU ≥ 1` and children that terminate in their first quantum: the run
returns, and the records appended are those of the jobs, in table order. -/
theorem scheduler_sorted_run (env : Env) (NCPU TSLICE : Int) (hN : 1 ≤ NCPU)
    (hq : ∀ log pid, 1 ≤ resumes log pid → (env.waitpid log pid).isSome = true)
    (n : Nat) (s : State) (hn : s.process_count = n)
    (hsorted : (live s).Pairwise prio_ge) (hready : ∀ p ∈ live s, p.status = 1) :
    ∃ (fuel : Nat) (s' : State) (jobs : List process) (new : List hnode),
      scheduler env NCPU TSLICE fuel s = some s' ∧ s'.process_count = 0 ∧
      s'.history = s.history ++ new ∧
      new.map record_key = jobs.map job_key ∧
      jobs.Sublist (live s) ∧
      ((∀ log, env.malloc log = true) → jobs = live s) := by
  induction n using Nat.strong_induction_on generalizing s with
  | _ n ih =>
    rcases Nat.eq_zero_or_pos n with h0 | hpos
    · have hc : s.process_count = 0 := by omega
      refine ⟨0, s, [], [], scheduler_of_count_zero env NCPU TSLICE 0 s hc, hc, by simp, rfl, ?_,
        fun _ => ?_⟩
      · rw [live_nil_of_count_zero s hc]
      · rw [live_nil_of_count_zero s hc]
    · obtain ⟨b, hb⟩ : ∃ b : Nat, (b : Int) = NCPU := ⟨NCPU.toNat, Int.toNat_of_nonneg (by omega)⟩
      have hb1 : 1 ≤ b := by omega
      have hready0 : ∀ a, 0 ≤ a → a < 0 + n → (s.process_table a).status = 1 := by
        intro a _ ha
        exact hready _ ((mem_seg _ _ _ _).mpr ⟨a, Nat.zero_le a, by omega, rfl⟩)
      obtain ⟨d1, d2, jobs1, new1, d3, d4, d5, d6⟩ := dispatch_loop_all_reaped env NCPU TSLICE hq
        n 0 0 b s (by simpa using hb) hready0
      obtain ⟨f1, -, -, -⟩ := dispatch_loop_frame env NCPU TSLICE n 0 0 s
      obtain ⟨r1, r2, r3, -⟩ := remove_terminated_processes_spec
        (dispatch_loop env NCPU TSLICE n 0 0 s)
      have hm : min n b + (n - min n b) = n := by omega
      -- the table after the dispatch loop: `min n b` terminated entries, then the rest
      have elive : live (dispatch_loop env NCPU TSLICE n 0 0 s)
          = seg (dispatch_loop env NCPU TSLICE n 0 0 s).process_table 0 (min n b)
            ++ seg s.process_table (min n b) (n - min n b) := by
        unfold live
        rw [f1, hn, seg_split _ (min n b) n (by omega)]
        congr 1
        exact seg_congr _ _ _ _ (fun a h1 h2 => d2 a (Or.inr (by omega)))
      have efilter : (live (dispatch_loop env NCPU TSLICE n 0 0 s)).filter kept
          = seg s.process_table (min n b) (n - min n b) := by
        rw [elive, List.filter_append]
        have h1 : (seg (dispatch_loop env NCPU TSLICE n 0 0 s).process_table 0 (min n b)).filter kept
            = [] := by
          rw [List.filter_eq_nil_iff]
          intro p hp
          obtain ⟨a, ha1, ha2, rfl⟩ := (mem_seg _ _ _ _).mp hp
          rw [kept_iff, d1 a ha1 ha2]
          simp
        have h2 : (seg s.process_table (min n b) (n - min n b)).filter kept
            = seg s.process_table (min n b) (n - min n b) := by
          apply filter_kept_of_ready
          intro p hp
          obtain ⟨a, ha1, ha2, rfl⟩ := (mem_seg _ _ _ _).mp hp
          exact hready0 a (Nat.zero_le a) (by omega)
        rw [h1, h2, List.nil_append]
      have esplit : live s = seg s.process_table 0 (min n b)
          ++ seg s.process_table (min n b) (n - min n b) := by
        unfold live
        rw [hn, seg_split _ (min n b) n (by omega)]
      have hiter : scheduler_iteration env NCPU TSLICE s
          = remove_terminated_processes (dispatch_loop env NCPU TSLICE n 0 0 s) := by
        unfold scheduler_iteration
        simp only
        rw [sort_by_priority_of_sorted s hsorted, hn]
      have hcount : (scheduler_iteration env NCPU TSLICE s).process_count = n - min n b := by
        rw [hiter, r2, efilter, length_seg]
      have hlive3 : live (scheduler_iteration env NCPU TSLICE s)
          = seg s.process_table (min n b) (n - min n b) := by
        rw [hiter, r1, efilter]
      have hsub : (seg s.process_table (min n b) (n - min n b)).Sublist (live s) := by
        rw [esplit]
        exact List.sublist_append_right _ _
      obtain ⟨fuel, s', jobs2, new2, c1, c2, c3, c4, c5, c6⟩ :=
        ih (n - min n b) (by omega) (scheduler_iteration env NCPU TSLICE s) hcount
          (by rw [hlive3]; exact hsorted.sublist hsub)
          (by rw [hlive3]; exact fun p hp => hready p (hsub.subset hp))
      refine ⟨fuel + 1, s', jobs1 ++ jobs2, new1 ++ new2, ?_, c2, ?_, ?_, ?_, fun hmal => ?_⟩
      · simp only [scheduler]
        rw [if_pos (by omega)]
        exact c1
      · rw [c3, hiter, r3, d3, List.append_assoc]
      · rw [List.map_append, List.map_append, d4, c4]
      · rw [esplit]
        rw [hlive3] at c5
        exact d5.append c5
      · rw [esplit, d6 hmal, c6 hmal, hlive3]

/-- C1. For every `NCPU ≥ 1` and every table of Ready jobs, if every child is
found terminated once it has been resumed, then `scheduler` returns with an
empty table, and the records it has appended to the history are, in order,
those of a list of jobs of the table whose priorities are non-increasing;
these are all the jobs of the table when allocation of history nodes
succeeds. -/
theorem history_in_priority_order (env : Env) (NCPU TSLICE : Int) (s : State)
    (hN : 1 ≤ NCPU)
    (hready : ∀ i, i < s.process_count → (s.process_table i).status = 1)
    (hq : ∀ log pid, 1 ≤ resumes log pid → (env.waitpid log pid).isSome = true) :
    ∃ (fuel : Nat) (s' : State) (jobs : List process) (new : List hnode),
      scheduler env NCPU TSLICE fuel s = some s' ∧ s'.process_count = 0 ∧
      s'.history = s.history ++ new ∧
      new.map record_key = jobs.map job_key ∧
      jobs.Pairwise (fun a b => b.priority ≤ a.priority) ∧
      (∀ p ∈ jobs, p ∈ live s) ∧
      ((∀ log, env.malloc log = true) → List.Perm jobs (live s)) := by
  obtain ⟨hsorted, hperm, -, hh, -⟩ := sort_by_priority_spec s
  have hready' : ∀ p ∈ live (sort_by_priority s), p.status = 1 := by
    intro p hp
    obtain ⟨a, -, ha, rfl⟩ := (mem_seg _ _ _ _).mp (hperm.subset hp)
    exact hready a (by omega)
  obtain ⟨fuel, s', jobs, new, h1, h2, h3, h4, h5, h6⟩ := scheduler_sorted_run env NCPU TSLICE hN hq
    _ (sort_by_priority s) rfl hsorted hready'
  rw [scheduler_sort] at h1
  rw [hh] at h3
  exact ⟨fuel, s', jobs, new, h1, h2, h3, h4, hsorted.sublist h5,
    fun p hp => hperm.subset (h5.subset hp), fun hm => by rw [h6 hm]; exact hperm⟩

/-- Witness for C1: scenario S1, a priority-1 job (pid 11) submitted before a
priority-4 job (pid 12), `NCPU = 1`; the run returns after two iterations and
the record of pid 12 precedes the record of pid 11. -/
theorem history_in_priority_order_witness :
    ((1 : Int) ≤ 1 ∧
     (∀ i, i < state_two_jobs.process_count → (state_two_jobs.process_table i).status = 1) ∧
     (∀ log pid, 1 ≤ resumes log pid → (env_ok.waitpid log pid).isSome = true)) ∧
    (∃ (fuel : Nat) (s' : State) (jobs : List process) (new : List hnode),
      scheduler env_ok 1 100 fuel state_two_jobs = some s' ∧ s'.process_count = 0 ∧
      s'.history = state_two_jobs.history ++ new ∧
      new.map record_key = jobs.map job_key ∧
      jobs.Pairwise (fun a b => b.priority ≤ a.priority) ∧
      (∀ p ∈ jobs, p ∈ live state_two_jobs) ∧
      ((∀ log, env_ok.malloc log = true) → List.Perm jobs (live state_two_jobs))) ∧
    (scheduler env_ok 1 100 2 state_two_jobs).map (fun s' => s'.history.map (fun n => n.pid))
      = some [12, 11] :=
  ⟨⟨by decide, by decide, fun _ _ _ => rfl⟩,
   history_in_priority_order env_ok 1 100 state_two_jobs (by decide) (by decide)
     (fun _ _ _ => rfl),
   by decide⟩

/-! ## `sort_by_priority` and `remove_terminated_processes` as table operations -/

/-- C15. After `sort_by_priority` the first `process_count` entries are in
non-increasing order of priority and are a permutation of the first
`process_count` entries before the call; `process_count`, the entries from
`process_count` on, the history and the trace are unchanged.  This holds for
every `process_count`, in particular for 0..100. -/
theorem sort_by_priority_sorted_perm (s : State) :
    (∀ a b, a < b → b < s.process_count →
      ((sort_by_priority s).process_table b).priority
        ≤ ((sort_by_priority s).process_table a).priority) ∧
    List.Perm (live (sort_by_priority s)) (live s) ∧
    (sort_by_priority s).process_count = s.process_count ∧
    (∀ a, s.process_count ≤ a → (sort_by_priority s).process_table a = s.process_table a) ∧
    (sort_by_priority s).history = s.history ∧
    (sort_by_priority s).log = s.log := by
  obtain ⟨h1, h2, h3, h4, h5⟩ := sort_by_priority_spec s
  refine ⟨fun a b hab hb => ?_, h2, h3, fun a ha => ?_, h4, h5⟩
  · exact (pairwise_seg prio_ge _ 0 _).mp h1 a b (Nat.zero_le a) hab (by rw [h3]; omega)
  · show sort_outer s.process_count (s.process_count - 1) 0 s.process_table a = s.process_table a
    rcases Nat.eq_zero_or_pos s.process_count with h0 | hpos
    · rw [h0]; rfl
    · exact (sort_outer_spec s.process_count (s.process_count - 1) 0 s.process_table
        (by omega)).2.2 a (Or.inr ha)

theorem remove_loop_of_kept (k i : Nat) (t : Nat → process)
    (h : ∀ a, i ≤ a → a < i + k → (t a).status ≠ 2) :
    remove_loop k i i t = (t, i + k) := by
  induction k generalizing i with
  | zero => rfl
  | succ k ih =>
    simp only [remove_loop]
    rw [if_pos (h i (le_refl i) (by omega)), Function.update_eq_self,
      ih (i + 1) (fun a h1 h2 => h a (by omega) (by omega))]
    congr 1
    omega

theorem remove_terminated_processes_of_kept (s : State)
    (h : ∀ i, i < s.process_count → (s.process_table i).status ≠ 2) :
    remove_terminated_processes s = s := by
  unfold remove_terminated_processes
  simp only
  rw [remove_loop_of_kept s.process_count 0 s.process_table (fun a _ ha => h a (by omega))]
  simp

/-- C18. `remove_terminated_processes` leaves in positions
`0 .. process_count-1` exactly the entries that were not Terminated, unaltered
and in their previous order, and sets `process_count` to their number;
afterwards no entry below `process_count` is Terminated, and a second
application changes nothing. -/
theorem remove_terminated_processes_compact (s : State) :
    live (remove_terminated_processes s) = (live s).filter kept ∧
    (remove_terminated_processes s).process_count = ((live s).filter kept).length ∧
    (∀ i, i < (remove_terminated_processes s).process_count →
      ((remove_terminated_processes s).process_table i).status ≠ 2) ∧
    (remove_terminated_processes s).history = s.history ∧
    remove_terminated_processes (remove_terminated_processes s) = remove_terminated_processes s := by
  obtain ⟨h1, h2, h3, -⟩ := remove_terminated_processes_spec s
  have hne : ∀ i, i < (remove_terminated_processes s).process_count →
      ((remove_terminated_processes s).process_table i).status ≠ 2 := by
    intro i hi
    have hmem : (remove_terminated_processes s).process_table i
        ∈ live (remove_terminated_processes s) :=
      (mem_seg _ _ _ _).mpr ⟨i, Nat.zero_le i, by omega, rfl⟩
    rw [h1, List.mem_filter, kept_iff] at hmem
    exact hmem.2
  refine ⟨h1, h2, hne, h3, ?_⟩
  exact remove_terminated_processes_of_kept _ hne

/-! ## The interrupt handler -/

theorem sigint_loop_spec (k i : Nat) (s : State) (out : List (CStr × Int)) :
    sigint_loop k i (s, out) =
      ({ s with log := (s.log ++ ((seg s.process_table i k).filter running_or_ready).map
          (fun p => Event.kill p.pid Signal.SIGKILL)) },
       out ++ ((seg s.process_table i k).filter running_or_ready).map
          (fun p => (p.process_name, p.pid))) := by
  induction k generalizing i s out with
  | zero => simp [sigint_loop]
  | succ k ih =>
    rw [seg_succ]
    simp only [sigint_loop]
    by_cases h : (s.process_table i).status = 0 ∨ (s.process_table i).status = 1
    · have hr : running_or_ready (s.process_table i) = true := by
        simp [running_or_ready, h]
      rw [if_pos h, ih, List.filter_cons_of_pos hr]
      simp
    · have hr : ¬ running_or_ready (s.process_table i) = true := by
        simp [running_or_ready, h]
      rw [if_neg h, ih, List.filter_cons_of_neg hr]

/-- C13. `handle_sigint` sends `SIGKILL` to exactly the entries among the
first `process_count` whose state is Running (0) or Ready (1), in table order,
and prints one line for each; it changes neither the table nor
`process_count` nor the history, so the dump it prints is the dump of the
history as it was when the interrupt arrived; then it exits with status 0. -/
theorem handle_sigint_spec (TSLICE : Int) (s : State) :
    (handle_sigint TSLICE s).state.log = s.log ++
      ((live s).filter running_or_ready).map (fun p => Event.kill p.pid Signal.SIGKILL) ∧
    (handle_sigint TSLICE s).killed
      = ((live s).filter running_or_ready).map (fun p => (p.process_name, p.pid)) ∧
    (handle_sigint TSLICE s).state.history = s.history ∧
    (handle_sigint TSLICE s).state.process_table = s.process_table ∧
    (handle_sigint TSLICE s).state.process_count = s.process_count ∧
    (handle_sigint TSLICE s).dump = display_history_details TSLICE s ∧
    (handle_sigint TSLICE s).exit_status = 0 := by
  have h := sigint_loop_spec s.process_count 0 s []
  unfold handle_sigint
  simp only
  rw [h]
  exact ⟨rfl, rfl, rfl, rfl, rfl, rfl, trivial⟩

/-! ## The status of a reaped child -/

theorem WIFEXITED_exit (ret : Nat) : WIFEXITED (W_EXITCODE ret 0) = true := by
  simp only [WIFEXITED, W_EXITCODE, beq_iff_eq]
  omega

theorem WIFEXITED_signal (sig : Nat) (h1 : 0 < sig) (h2 : sig < 128) :
    WIFEXITED (W_EXITCODE 0 sig) = false := by
  simp only [WIFEXITED, W_EXITCODE, beq_eq_false_iff_ne]
  omega

/-- C12. When the scheduler reaps a child with wait status `status` (and the
history node is allocated), the record appended has status 0 and is printed as
`Success` exactly when `WIFEXITED status` holds, and has status 1 and is
printed as `Failed` exactly when it does not.  A child that called `exit` with
any code has `WIFEXITED`; a child killed by a signal has not. -/
theorem exit_status_mapping (env : Env) (TSLICE : Int) (s : State) (i : Nat) (status : Nat)
    (hw : env.waitpid (reap_log TSLICE s i) (s.process_table i).pid = some status)
    (hm : ∀ log, env.malloc log = true) :
    (∃ (node : hnode) (line : HistoryLine),
      (dispatch env TSLICE s i).history = s.history ++ [node] ∧
      display_history_details TSLICE (dispatch env TSLICE s i)
        = display_history_details TSLICE s ++ [line] ∧
      record_matches node (s.process_table i) ∧ line.pid = (s.process_table i).pid ∧
      ((node.status = 0 ∧ line.label = "Success") ↔ WIFEXITED status = true) ∧
      ((node.status = 1 ∧ line.label = "Failed") ↔ WIFEXITED status = false)) ∧
    (∀ ret, WIFEXITED (W_EXITCODE ret 0) = true) ∧
    (∀ sig, 0 < sig → sig < 128 → WIFEXITED (W_EXITCODE 0 sig) = false) := by
  refine ⟨?_, WIFEXITED_exit, WIFEXITED_signal⟩
  obtain ⟨node, new, t, -, hh, hmatch, hst, -, hnew⟩ := dispatch_of_some env TSLICE s i status hw
  rw [hnew hm] at hh
  refine ⟨node, display_node TSLICE (1 + s.history.length) node, hh, ?_, hmatch, hmatch.2.1, ?_, ?_⟩
  · simp only [display_history_details, hh, display_loop_append]
  · cases hx : WIFEXITED status
    · rw [hst, hx]; simp [display_node]
    · rw [hst, hx]; simp [display_node, hst, hx]
  · cases hx : WIFEXITED status
    · rw [hst, hx]; simp [display_node, hst, hx]
    · rw [hst, hx]; simp [display_node]

/-- Witness for C12: the single job of `state_one_job`, whose child exited
with code 0. -/
theorem exit_status_mapping_witness :
    (env_ok.waitpid (reap_log 100 state_one_job 0) (state_one_job.process_table 0).pid = some 0 ∧
     ∀ log, env_ok.malloc log = true) ∧
    ∃ (node : hnode) (line : HistoryLine),
      (dispatch env_ok 100 state_one_job 0).history = state_one_job.history ++ [node] ∧
      display_history_details 100 (dispatch env_ok 100 state_one_job 0)
        = display_history_details 100 state_one_job ++ [line] ∧
      record_matches node (state_one_job.process_table 0) ∧
      line.pid = (state_one_job.process_table 0).pid ∧
      ((node.status = 0 ∧ line.label = "Success") ↔ WIFEXITED 0 = true) ∧
      ((node.status = 1 ∧ line.label = "Failed") ↔ WIFEXITED 0 = false) :=
  ⟨⟨rfl, fun _ => rfl⟩,
   (exit_status_mapping env_ok 100 state_one_job 0 0 rfl (fun _ => rfl)).1⟩

/-! ## The order of dispatch -/

theorem sigconts_append (l1 l2 : List Event) : sigconts (l1 ++ l2) = sigconts l1 ++ sigconts l2 := by
  simp [sigconts, List.filterMap_append]

/-- One dispatch appends to the trace and sends one `SIGCONT`, to the child of
the dispatched entry. -/
theorem dispatch_log (env : Env) (TSLICE : Int) (s : State) (i : Nat) :
    ∃ ext, (dispatch env TSLICE s i).log = s.log ++ ext ∧
      sigconts ext = [(s.process_table i).pid] := by
  rcases hw : env.waitpid (reap_log TSLICE s i) (s.process_table i).pid with _ | status
  · rw [dispatch_eq_none env TSLICE s i hw]
    refine ⟨[Event.kill (s.process_table i).pid Signal.SIGCONT,
      Event.usleep (usleep_arg TSLICE (s.process_table i).priority),
      Event.waitpid (s.process_table i).pid,
      Event.kill (s.process_table i).pid Signal.SIGSTOP], ?_, ?_⟩
    · simp [reap_log]
    · simp [sigconts]
  · rw [dispatch_eq_some env TSLICE s i status hw]
    obtain ⟨_, _, _, _, _, _, _, _, _, _, _, h⟩ := add_history_spec env TSLICE
      { s with
          process_table := Function.update s.process_table i
            { s.process_table i with
              status := 2
              end_time := env.time (reap_log TSLICE s i ++ [Event.waitpid (s.process_table i).pid]) }
          log := reap_log TSLICE s i ++ [Event.waitpid (s.process_table i).pid] ++ [Event.time] }
        (s.process_table i).process_name (s.process_table i).pid (s.process_table i).start_time
        (env.time (reap_log TSLICE s i ++ [Event.waitpid (s.process_table i).pid]))
        (if WIFEXITED status then 0 else 1)
    rw [h]
    refine ⟨[Event.kill (s.process_table i).pid Signal.SIGCONT,
      Event.usleep (usleep_arg TSLICE (s.process_table i).priority),
      Event.waitpid (s.process_table i).pid, Event.time, Event.malloc], ?_, ?_⟩
    · simp [reap_log]
    · simp [sigconts]

theorem filter_terminated_nil (l : List process) (h : ∀ p ∈ l, p.status ≠ 2) :
    l.filter terminated = [] := by
  rw [List.filter_eq_nil_iff]
  intro p hp
  simp [terminated, h p hp]

/-- The dispatch loop, for any behaviour of the children.  It resumes the
Ready entries it walks over, in table order, until the budget `NCPU` is used
up; the records it appends are those of resumed jobs, in the same order; and
when allocation succeeds and no walked entry was Terminated before, they are
exactly the records of the entries Terminated afterwards, in table order. -/
theorem dispatch_loop_trace (env : Env) (NCPU TSLICE : Int) (k i rj : Nat) (s : State) :
    ∃ (ext : List Event) (jobs : List process) (new : List hnode),
      (dispatch_loop env NCPU TSLICE k i rj s).log = s.log ++ ext ∧
      sigconts ext = (((seg s.process_table i k).filter ready).take
        (NCPU - (rj : Int)).toNat).map (fun p => p.pid) ∧
      (dispatch_loop env NCPU TSLICE k i rj s).history = s.history ++ new ∧
      jobs.Sublist (((seg s.process_table i k).filter ready).take (NCPU - (rj : Int)).toNat) ∧
      new.map record_key = jobs.map job_key ∧
      ((∀ log, env.malloc log = true) →
        (∀ a, i ≤ a → a < i + k → (s.process_table a).status ≠ 2) →
        new.map record_key =
          ((seg (dispatch_loop env NCPU TSLICE k i rj s).process_table i k).filter
            terminated).map job_key) := by
  induction k generalizing i rj s with
  | zero =>
    refine ⟨[], [], [], ?_, ?_, ?_, ?_, ?_, ?_⟩ <;> simp [dispatch_loop, sigconts]
  | succ k ih =>
    have hframe := fun rj' s' => (dispatch_loop_frame env NCPU TSLICE k (i + 1) rj' s').2.2.1 i
      (Or.inl (by omega))
    simp only [dispatch_loop]
    by_cases h1 : (rj : Int) < NCPU
    · rw [if_pos h1]
      by_cases h2 : (s.process_table i).status = 1
      · rw [if_pos h2]
        have hr : ready (s.process_table i) = true := by simp [ready, h2]
        obtain ⟨b, hb⟩ : ∃ b : Nat, (NCPU - (rj : Int)).toNat = b + 1 :=
          ⟨(NCPU - (rj : Int)).toNat - 1, by omega⟩
        have hb' : (NCPU - ((rj + 1 : Nat) : Int)).toNat = b := by
          push_cast; omega
        have es : seg (dispatch env TSLICE s i).process_table (i + 1) k
            = seg s.process_table (i + 1) k :=
          seg_congr _ _ _ _ (fun a h1 _ => dispatch_table_outside env TSLICE s i a (by omega))
        obtain ⟨ext1, jobs1, new1, g1, g2, g3, g4, g5, g6⟩ :=
          ih (i + 1) (rj + 1) (dispatch env TSLICE s i)
        rw [es, hb'] at g2 g4
        obtain ⟨ext0, l0, l1⟩ := dispatch_log env TSLICE s i
        rw [seg_succ, List.filter_cons_of_pos hr, hb, List.take_succ_cons, seg_succ, hframe]
        rcases hw : env.waitpid (reap_log TSLICE s i) (s.process_table i).pid with _ | status
        · obtain ⟨e1, e2⟩ := dispatch_of_none env TSLICE s i hw
          refine ⟨ext0 ++ ext1, jobs1, new1, ?_, ?_, ?_, g4.cons _, g5, fun hm hst => ?_⟩
          · rw [g1, l0, List.append_assoc]
          · rw [sigconts_append, l1, g2]; rfl
          · rw [g3, e2]
          · have hnt : ¬ terminated ((dispatch env TSLICE s i).process_table i) = true := by
              rw [e1]; simp [terminated, h2]
            rw [List.filter_cons_of_neg hnt]
            refine g6 hm (fun a ha1 ha2 => ?_)
            rw [dispatch_table_outside env TSLICE s i a (by omega)]
            exact hst a (by omega) (by omega)
        · obtain ⟨node, new0, t, e1, e2, e3, -, e5, e6⟩ := dispatch_of_some env TSLICE s i status hw
          have hkey : job_key ((dispatch env TSLICE s i).process_table i)
              = job_key (s.process_table i) := by
            rw [e1]; simp [job_key]
          have hterm : terminated ((dispatch env TSLICE s i).process_table i) = true := by
            rw [e1]; simp [terminated]
          rcases e5 with e5 | e5
          · refine ⟨ext0 ++ ext1, s.process_table i :: jobs1, node :: new1, ?_, ?_, ?_,
              g4.cons₂ _, ?_, fun hm hst => ?_⟩
            · rw [g1, l0, List.append_assoc]
            · rw [sigconts_append, l1, g2]; rfl
            · rw [g3, e2, e5]; simp
            · simp only [List.map_cons, g5, record_key_of_matches node _ e3]
            · rw [List.filter_cons_of_pos hterm]
              simp only [List.map_cons, hkey, record_key_of_matches node _ e3]
              congr 1
              refine g6 hm (fun a ha1 ha2 => ?_)
              rw [dispatch_table_outside env TSLICE s i a (by omega)]
              exact hst a (by omega) (by omega)
          · refine ⟨ext0 ++ ext1, jobs1, new1, ?_, ?_, ?_, g4.cons _, g5, fun hm hst => ?_⟩
            · rw [g1, l0, List.append_assoc]
            · rw [sigconts_append, l1, g2]; rfl
            · rw [g3, e2, e5]; simp
            · have := e6 hm
              rw [e5] at this
              exact absurd this (by simp)
      · rw [if_neg h2]
        have hr : ¬ ready (s.process_table i) = true := by simp [ready, h2]
        obtain ⟨ext1, jobs1, new1, g1, g2, g3, g4, g5, g6⟩ := ih (i + 1) rj s
        rw [seg_succ, List.filter_cons_of_neg hr, seg_succ, hframe]
        refine ⟨ext1, jobs1, new1, g1, g2, g3, g4, g5, fun hm hst => ?_⟩
        have hnt : ¬ terminated (s.process_table i) = true := by
          simp [terminated, hst i (le_refl i) (by omega)]
        rw [List.filter_cons_of_neg hnt]
        exact g6 hm (fun a ha1 ha2 => hst a (by omega) (by omega))
    · rw [if_neg h1]
      have hb : (NCPU - (rj : Int)).toNat = 0 := by omega
      rw [hb]
      refine ⟨[], [], [], by simp, by simp [sigconts], by simp, by simp, rfl, fun _ hst => ?_⟩
      rw [filter_terminated_nil]
      · rfl
      · intro p hp
        obtain ⟨a, ha1, ha2, rfl⟩ := (mem_seg _ _ _ _).mp hp
        exact hst a ha1 ha2

/-- One scheduler iteration, for any behaviour of the children: the `SIGCONT`
signals it sends go to the jobs of `dispatched`, in that order, and the
records it appends are those of jobs of `dispatched`, in that order. -/
theorem scheduler_iteration_trace (env : Env) (NCPU TSLICE : Int) (s : State) :
    ∃ (ext : List Event) (jobs : List process) (new : List hnode),
      (scheduler_iteration env NCPU TSLICE s).log = s.log ++ ext ∧
      sigconts ext = (dispatched NCPU s).map (fun p => p.pid) ∧
      (scheduler_iteration env NCPU TSLICE s).history = s.history ++ new ∧
      jobs.Sublist (dispatched NCPU s) ∧
      new.map record_key = jobs.map job_key ∧
      ((∀ log, env.malloc log = true) →
        (∀ a, a < s.process_count → (s.process_table a).status ≠ 2) →
        new.map record_key =
          ((live (dispatch_loop env NCPU TSLICE s.process_count 0 0 (sort_by_priority s))).filter
            terminated).map job_key) := by
  obtain ⟨-, hsp, -, -, -⟩ := sort_by_priority_spec s
  obtain ⟨ext, jobs, new, g1, g2, g3, g4, g5, g6⟩ :=
    dispatch_loop_trace env NCPU TSLICE s.process_count 0 0 (sort_by_priority s)
  obtain ⟨f1, -, -, -⟩ := dispatch_loop_frame env NCPU TSLICE s.process_count 0 0
    (sort_by_priority s)
  have h0 : (NCPU - ((0 : Nat) : Int)).toNat = NCPU.toNat := by simp
  rw [h0] at g2 g4
  refine ⟨ext, jobs, new, g1, g2, g3, g4, g5, fun hm hst => ?_⟩
  have := g6 hm (fun a _ ha => by
    have hmem : (sort_by_priority s).process_table a ∈ live s :=
      hsp.subset ((mem_seg _ _ _ _).mpr ⟨a, Nat.zero_le a, by simpa using ha, rfl⟩)
    obtain ⟨c, -, hc, e⟩ := (mem_seg _ _ _ _).mp hmem
    rw [← e]
    exact hst c (by omega))
  rw [this]
  unfold live
  rw [f1]
  rfl

/-! ## Dispatch order within one iteration -/

theorem filter_ready_of_ready (l : List process) (h : ∀ p ∈ l, p.status = 1) :
    l.filter ready = l := by
  rw [List.filter_eq_self]
  intro p hp
  simp [ready, h p hp]

/-- In a list in non-increasing priority order, a job of strictly higher
priority occurs before every occurrence of a job of lower priority. -/
theorem mem_before_of_sorted (l pre post : List process) (A B : process)
    (hs : l.Pairwise prio_ge) (hA : A ∈ l) (hlt : B.priority < A.priority)
    (hl : l = pre ++ B :: post) : A ∈ pre := by
  subst hl
  rw [List.mem_append, List.mem_cons] at hA
  rcases hA with hA | hA | hA
  · exact hA
  · subst hA; omega
  · exfalso
    have h1 := (List.pairwise_append.mp hs).2.1
    have h2 : prio_ge B A := (List.pairwise_cons.mp h1).1 A hA
    unfold prio_ge at h2
    omega

/-- C14. In one scheduler iteration, for every `NCPU` (in particular
`NCPU ≥ 2`), every job A of the table that is Ready at the start and every
job B with `priority A > priority B`: the `SIGCONT` signals of the iteration
go to the jobs of `dispatched`, in that order, and wherever B occurs in that
order A occurs before it; so B is resumed only after A has been. -/
theorem higher_priority_dispatched_first (env : Env) (NCPU TSLICE : Int) (s : State)
    (A B : process) (hA : A ∈ live s) (hAr : A.status = 1) (hlt : B.priority < A.priority) :
    (∃ ext, (scheduler_iteration env NCPU TSLICE s).log = s.log ++ ext ∧
      sigconts ext = (dispatched NCPU s).map (fun p => p.pid)) ∧
    (∀ pre post, dispatched NCPU s = pre ++ B :: post → A ∈ pre) ∧
    (B ∈ dispatched NCPU s → [A, B].Sublist (dispatched NCPU s)) := by
  obtain ⟨ext, -, -, g1, g2, -⟩ := scheduler_iteration_trace env NCPU TSLICE s
  obtain ⟨hsorted, hperm, -, -, -⟩ := sort_by_priority_spec s
  have hF : ((live (sort_by_priority s)).filter ready).Pairwise prio_ge :=
    hsorted.sublist (List.filter_sublist _)
  have hAF : A ∈ (live (sort_by_priority s)).filter ready := by
    rw [List.mem_filter]
    exact ⟨hperm.symm.subset hA, by simp [ready, hAr]⟩
  have key : ∀ pre post, dispatched NCPU s = pre ++ B :: post → A ∈ pre := by
    intro pre post hd
    have hsplit := List.take_append_drop NCPU.toNat ((live (sort_by_priority s)).filter ready)
    unfold dispatched at hd
    rw [hd, List.append_assoc, List.cons_append] at hsplit
    exact mem_before_of_sorted _ pre _ A B hF hAF hlt hsplit.symm
  refine ⟨⟨ext, g1, g2⟩, key, fun hmem => ?_⟩
  obtain ⟨pre, post, hd⟩ := List.append_of_mem hmem
  have hApre := key pre post hd
  rw [hd]
  have h1 : [A].Sublist pre := List.singleton_sublist.mpr hApre
  have h2 : [B].Sublist (B :: post) := List.singleton_sublist.mpr (List.mem_cons_self _ _)
  exact h1.append h2

/-- Witness for C14: scenario S1 with `NCPU = 2`; the priority-4 job (pid 12)
is resumed before the priority-1 job (pid 11). -/
theorem higher_priority_dispatched_first_witness :
    (state_two_jobs.process_table 1 ∈ live state_two_jobs ∧
     (state_two_jobs.process_table 1).status = 1 ∧
     (state_two_jobs.process_table 0).priority < (state_two_jobs.process_table 1).priority) ∧
    [state_two_jobs.process_table 1, state_two_jobs.process_table 0].Sublist
      (dispatched 2 state_two_jobs) ∧
    sigconts (scheduler_iteration env_never 2 100 state_two_jobs).log = [12, 11] :=
  ⟨⟨by decide, by decide, by decide⟩,
   (higher_priority_dispatched_first env_never 2 100 state_two_jobs
      (state_two_jobs.process_table 1) (state_two_jobs.process_table 0)
      (by decide) (by decide) (by decide)).2.2 (by decide),
   by decide⟩

/-- C19. In one scheduler iteration starting with all `process_count` jobs
Ready and `NCPU ≥ 0`, the `SIGCONT` signals sent go to the first
`min NCPU process_count` entries of the priority-sorted table, once each, in
table order; so at most `NCPU` jobs are resumed, and when the pids of the
table are distinct a job with at least `NCPU` entries ahead of it in the
sorted table is sent no `SIGCONT`. -/
theorem dispatch_budget (env : Env) (NCPU TSLICE : Int) (s : State) (hN : 0 ≤ NCPU)
    (hready : ∀ i, i < s.process_count → (s.process_table i).status = 1) :
    ∃ ext, (scheduler_iteration env NCPU TSLICE s).log = s.log ++ ext ∧
      sigconts ext = ((live (sort_by_priority s)).take NCPU.toNat).map (fun p => p.pid) ∧
      ((sigconts ext).length : Int) = min NCPU (s.process_count : Int) ∧
      ((sigconts ext).length : Int) ≤ NCPU ∧
      (((live s).map (fun p => p.pid)).Nodup →
        ∀ a, NCPU.toNat ≤ a → a < s.process_count →
          ((sort_by_priority s).process_table a).pid ∉ sigconts ext) := by
  obtain ⟨ext, -, -, g1, g2, -⟩ := scheduler_iteration_trace env NCPU TSLICE s
  obtain ⟨-, hperm, hcount, -, -⟩ := sort_by_priority_spec s
  have hready1 : ∀ p ∈ live (sort_by_priority s), p.status = 1 := by
    intro p hp
    obtain ⟨a, -, ha, rfl⟩ := (mem_seg _ _ _ _).mp (hperm.subset hp)
    exact hready a (by omega)
  have hd : dispatched NCPU s = (live (sort_by_priority s)).take NCPU.toNat := by
    unfold dispatched
    rw [filter_ready_of_ready _ hready1]
  rw [hd] at g2
  have hlen : (sigconts ext).length = min NCPU.toNat s.process_count := by
    rw [g2, List.length_map, List.length_take]
    simp [live, hcount]
  refine ⟨ext, g1, g2, ?_, ?_, fun hnd a ha1 ha2 hmem => ?_⟩
  · rw [hlen]; omega
  · rw [hlen]; omega
  · have hnd1 : ((live (sort_by_priority s)).map (fun p => p.pid)).Nodup :=
      ((hperm.map _).nodup_iff).mpr hnd
    rw [← List.take_append_drop NCPU.toNat (live (sort_by_priority s)), List.map_append] at hnd1
    have hdisj := (List.nodup_append.mp hnd1).2.2
    rw [g2] at hmem
    have hdrop : ((sort_by_priority s).process_table a).pid
        ∈ ((live (sort_by_priority s)).drop NCPU.toNat).map (fun p => p.pid) := by
      refine List.mem_map.mpr ⟨(sort_by_priority s).process_table a, ?_, rfl⟩
      have hsplit : live (sort_by_priority s)
          = seg (sort_by_priority s).process_table 0 NCPU.toNat
            ++ seg (sort_by_priority s).process_table NCPU.toNat (s.process_count - NCPU.toNat) := by
        unfold live
        rw [hcount, seg_split _ NCPU.toNat s.process_count (by omega)]
      rw [hsplit, List.drop_left' (by simp)]
      exact (mem_seg _ _ _ _).mpr ⟨a, ha1, by omega, rfl⟩
    exact hdisj hmem hdrop

/-- Witness for C19: three Ready jobs and `NCPU = 2`; the two entries at the
head of the sorted table (pids 23 and 22) are resumed, the third is not. -/
theorem dispatch_budget_witness :
    ((0 : Int) ≤ 2 ∧
     ∀ i, i < state_ties.process_count → (state_ties.process_table i).status = 1) ∧
    (∃ ext, (scheduler_iteration env_never 2 100 state_ties).log = state_ties.log ++ ext ∧
      sigconts ext = ((live (sort_by_priority state_ties)).take (2 : Int).toNat).map
        (fun p => p.pid) ∧
      ((sigconts ext).length : Int) = min 2 (state_ties.process_count : Int) ∧
      ((sigconts ext).length : Int) ≤ 2 ∧
      (((live state_ties).map (fun p => p.pid)).Nodup →
        ∀ a, (2 : Int).toNat ≤ a → a < state_ties.process_count →
          ((sort_by_priority state_ties).process_table a).pid ∉ sigconts ext)) ∧
    sigconts (scheduler_iteration env_never 2 100 state_ties).log = [23, 22] :=
  ⟨⟨by decide, by decide⟩,
   dispatch_budget env_never 2 100 state_ties (by decide) (by decide),
   by decide⟩

/-! ## The history is append-only -/

/-- C20. A successful `add_history` call leaves the history list as it was,
followed by exactly one new record (for the given command, pid, submit time
and status).  Hence in one scheduler iteration the history is extended by the
records of jobs taken from `dispatched`, the jobs resumed in that iteration,
in the order they were resumed; with allocation succeeding and no job
Terminated at the start these are the records of exactly the entries marked
Terminated by the dispatch loop, in table order. -/
theorem history_append_only (env : Env) (NCPU TSLICE : Int) (s : State) (command : CStr)
    (pid start end_ status : Int) :
    (env.malloc s.log = true →
      ∃ node : hnode,
        (add_history env TSLICE s command pid start end_ status).history = s.history ++ [node] ∧
        node.command = strncpy_max command ∧ node.pid = pid ∧ node.start_time = start ∧
        node.status = status) ∧
    ∃ (jobs : List process) (new : List hnode),
      (scheduler_iteration env NCPU TSLICE s).history = s.history ++ new ∧
      jobs.Sublist (dispatched NCPU s) ∧
      new.map record_key = jobs.map job_key ∧
      ((∀ log, env.malloc log = true) →
        (∀ a, a < s.process_count → (s.process_table a).status ≠ 2) →
        new.map record_key =
          ((live (dispatch_loop env NCPU TSLICE s.process_count 0 0 (sort_by_priority s))).filter
            terminated).map job_key) := by
  refine ⟨fun hm => ?_, ?_⟩
  · rw [add_history_of_malloc env TSLICE s command pid start end_ status hm]
    exact ⟨_, rfl, rfl, rfl, rfl, rfl⟩
  · obtain ⟨-, jobs, new, -, -, g3, g4, g5, g6⟩ := scheduler_iteration_trace env NCPU TSLICE s
    exact ⟨jobs, new, g3, g4, g5, g6⟩

/-- Witness for C20: one `add_history` call on the empty history, and one
iteration on scenario S1 with `NCPU = 2`, which appends the records of pid 12
and pid 11 in that order. -/
theorem history_append_only_witness :
    env_ok.malloc state_init.log = true ∧
    (∃ node : hnode,
      (add_history env_ok 100 state_init ['x'] 7 10 12 0).history = state_init.history ++ [node] ∧
      node.command = strncpy_max ['x'] ∧ node.pid = 7 ∧ node.start_time = 10 ∧
      node.status = 0) ∧
    (scheduler_iteration env_ok 2 100 state_two_jobs).history.map (fun n => n.pid) = [12, 11] :=
  ⟨rfl, (history_append_only env_ok 2 100 state_init ['x'] 7 10 12 0).1 rfl, by decide⟩

/-! ## Signals whose delivery fails -/

theorem dispatch_kill_irrelevant (env : Env) (kill2 : List Event → Int → Signal → Int)
    (TSLICE : Int) (s : State) (i : Nat) :
    dispatch { env with kill := kill2 } TSLICE s i = dispatch env TSLICE s i := rfl

theorem dispatch_loop_kill_irrelevant (env : Env) (kill2 : List Event → Int → Signal → Int)
    (NCPU TSLICE : Int) (k i rj : Nat) (s : State) :
    dispatch_loop { env with kill := kill2 } NCPU TSLICE k i rj s
      = dispatch_loop env NCPU TSLICE k i rj s := by
  induction k generalizing i rj s with
  | zero => rfl
  | succ k ih =>
    simp only [dispatch_loop, dispatch_kill_irrelevant, ih]

theorem scheduler_iteration_kill_irrelevant (env : Env)
    (kill2 : List Event → Int → Signal → Int) (NCPU TSLICE : Int) (s : State) :
    scheduler_iteration { env with kill := kill2 } NCPU TSLICE s
      = scheduler_iteration env NCPU TSLICE s := by
  unfold scheduler_iteration
  simp only [dispatch_loop_kill_irrelevant]

/-- C11, counterexample. With one Ready job, every `kill` call failing and
`waitpid` not reporting the child terminated, one scheduler iteration leaves
the job in the table, Ready, and appends no history record. -/
theorem signal_failure_counterexample :
    (∀ log pid sig, env_kill_fails.kill log pid sig = -1) ∧
    (scheduler_iteration env_kill_fails 1 100 state_one_job).process_count = 1 ∧
    ((scheduler_iteration env_kill_fails 1 100 state_one_job).process_table 0).status = 1 ∧
    ((scheduler_iteration env_kill_fails 1 100 state_one_job).process_table 0).pid = 7 ∧
    (scheduler_iteration env_kill_fails 1 100 state_one_job).history = [] := by
  refine ⟨fun _ _ _ => rfl, ?_, ?_, ?_, ?_⟩ <;> decide

/-! ## Ties in `sort_by_priority` -/

theorem dispatch_priority (env : Env) (TSLICE : Int) (s : State) (i a : Nat) :
    ((dispatch env TSLICE s i).process_table a).priority = (s.process_table a).priority := by
  rcases dispatch_table_cases env TSLICE s i with e | ⟨t, e⟩
  · rw [e]
  · rw [e]
    by_cases h : a = i
    · subst h; simp
    · simp [Function.update, h]

theorem dispatch_loop_priority (env : Env) (NCPU TSLICE : Int) (k i rj : Nat) (s : State)
    (a : Nat) :
    ((dispatch_loop env NCPU TSLICE k i rj s).process_table a).priority
      = (s.process_table a).priority := by
  induction k generalizing i rj s with
  | zero => rfl
  | succ k ih =>
    simp only [dispatch_loop]
    split_ifs
    · rw [ih, dispatch_priority]
    · rw [ih]
    · rfl

/-- After one scheduler iteration the jobs left in the table are in
non-increasing priority order. -/
theorem scheduler_iteration_sorted (env : Env) (NCPU TSLICE : Int) (s : State) :
    (live (scheduler_iteration env NCPU TSLICE s)).Pairwise prio_ge := by
  obtain ⟨hsorted, -, hcount, -, -⟩ := sort_by_priority_spec s
  obtain ⟨f1, -, -, -⟩ := dispatch_loop_frame env NCPU TSLICE
    (sort_by_priority s).process_count 0 0 (sort_by_priority s)
  obtain ⟨r1, -, -, -⟩ := remove_terminated_processes_spec
    (dispatch_loop env NCPU TSLICE (sort_by_priority s).process_count 0 0 (sort_by_priority s))
  unfold scheduler_iteration
  simp only
  rw [r1]
  refine List.Pairwise.sublist (List.filter_sublist _) ?_
  unfold live
  rw [f1, pairwise_seg]
  intro a b ha hab hb
  have := (pairwise_seg prio_ge _ 0 _).mp hsorted a b ha hab hb
  unfold prio_ge at this ⊢
  rw [dispatch_loop_priority, dispatch_loop_priority]
  exact this

/-- C16, counterexample. Three Ready jobs with priorities 1, 1, 2 (pids 21,
22, 23): after `sort_by_priority` the order is 23, 22, 21, so the two jobs of
priority 1 have exchanged their places. -/
theorem sort_unstable_counterexample :
    (state_ties.process_table 0).priority = (state_ties.process_table 1).priority ∧
    (live state_ties).map (fun p => p.pid) = [21, 22, 23] ∧
    (live (sort_by_priority state_ties)).map (fun p => p.pid) = [23, 22, 21] := by
  decide

/-- C16, amended. `sort_by_priority` changes nothing in a table whose jobs are
already in non-increasing priority order, so jobs of equal priority then keep
their relative order; and after every scheduler iteration the jobs left in the
table are in that order, so within a run of the scheduler the sort of every
iteration after the first changes nothing. -/
theorem sort_keeps_sorted_table (env : Env) (NCPU TSLICE : Int) (s : State) :
    ((live s).Pairwise prio_ge → sort_by_priority s = s) ∧
    (live (scheduler_iteration env NCPU TSLICE s)).Pairwise prio_ge ∧
    sort_by_priority (scheduler_iteration env NCPU TSLICE s)
      = scheduler_iteration env NCPU TSLICE s :=
  ⟨sort_by_priority_of_sorted s, scheduler_iteration_sorted env NCPU TSLICE s,
   sort_by_priority_of_sorted _ (scheduler_iteration_sorted env NCPU TSLICE s)⟩

/-- Witness for C16 amended: the table of scenario S1 once sorted is left
unchanged by a second sort. -/
theorem sort_keeps_sorted_table_witness :
    (live (sort_by_priority state_two_jobs)).Pairwise prio_ge ∧
    sort_by_priority (sort_by_priority state_two_jobs) = sort_by_priority state_two_jobs :=
  ⟨(sort_by_priority_spec state_two_jobs).1,
   (sort_keeps_sorted_table env_ok 1 100 (sort_by_priority state_two_jobs)).1
     (sort_by_priority_spec state_two_jobs).1⟩

/-! ## The finish time stored in a record -/

/-- The record `add_history` writes: the stored elapsed time is the whole
number of seconds in `max (end - start) (TSLICE / 1000)`. -/
theorem add_history_stored_elapsed (env : Env) (TSLICE : Int) (s : State) (command : CStr)
    (pid start end_ status : Int) (hm : env.malloc s.log = true) :
    ∃ node : hnode,
      (add_history env TSLICE s command pid start end_ status).history = s.history ++ [node] ∧
      node.start_time = start ∧
      node.end_time - node.start_time
        = c_trunc (max (difftime end_ start) ((TSLICE : ℚ) / 1000)) ∧
      (¬ difftime end_ start < (TSLICE : ℚ) / 1000 → node.end_time = end_) := by
  rw [add_history_of_malloc env TSLICE s command pid start end_ status hm]
  refine ⟨_, rfl, rfl, ?_, fun h => ?_⟩
  · by_cases h : difftime end_ start < (TSLICE : ℚ) / 1000
    · simp only [if_pos h, max_eq_right (le_of_lt h)]
      omega
    · simp only [if_neg h, max_eq_left (not_lt.mp h)]
      omega
  · simp only [if_neg h]
    show start + c_trunc (((end_ - start : Int) : ℚ)) = end_
    rw [c_trunc_intCast]
    omega

/-- C17, the code at `TSLICE = 500`, `start = end = 10`: the raw elapsed time
0 is below `TSLICE / 1000 = 1/2`, and the record written has
`end_time = 10`, an elapsed time of 0 seconds, not 1/2. -/
theorem add_history_truncates :
    difftime 10 10 < ((500 : Int) : ℚ) / 1000 ∧
    (add_history env_ok 500 state_init ['t'] 7 10 10 0).history
      = [{ command := ['t'], pid := 7, start_time := 10, end_time := 10, status := 0 }] ∧
    (((10 : Int) - 10 : Int) : ℚ) ≠ ((500 : Int) : ℚ) / 1000 := by
  refine ⟨by norm_num [difftime], ?_, by norm_num⟩
  rw [add_history_of_malloc env_ok 500 state_init ['t'] 7 10 10 0 rfl]
  have h : difftime 10 10 < ((500 : Int) : ℚ) / 1000 := by norm_num [difftime]
  have hc : c_trunc (((500 : Int) : ℚ) / 1000) = 0 := by
    unfold c_trunc
    rw [if_pos (by norm_num)]
    rw [Int.floor_eq_iff]
    norm_num
  simp only [if_pos h, hc]
  rfl

/-! ## The fate of a dispatched job within one iteration -/

/-- The dispatch loop over `m + k` entries is the loop over the first `m`
followed by the loop over the other `k`, when the first `m` entries are Ready
and the budget allows `m` dispatches. -/
theorem dispatch_loop_split (env : Env) (NCPU TSLICE : Int) (m k i rj : Nat) (s : State)
    (hready : ∀ b, i ≤ b → b < i + m → (s.process_table b).status = 1)
    (hN : ((rj + m : Nat) : Int) ≤ NCPU) :
    dispatch_loop env NCPU TSLICE (m + k) i rj s
      = dispatch_loop env NCPU TSLICE k (i + m) (rj + m) (dispatch_loop env NCPU TSLICE m i rj s) := by
  induction m generalizing i rj s with
  | zero => simp [dispatch_loop]
  | succ m ih =>
    have h1 : (rj : Int) < NCPU := by push_cast at hN; omega
    have h2 : (s.process_table i).status = 1 := hready i (le_refl i) (by omega)
    rw [show m + 1 + k = (m + k) + 1 by omega]
    simp only [dispatch_loop, if_pos h1, if_pos h2]
    rw [ih (i + 1) (rj + 1) (dispatch env TSLICE s i)
      (fun b hb1 hb2 => by
        rw [dispatch_table_outside env TSLICE s i b (by omega)]
        exact hready b (by omega) (by omega))
      (by push_cast at hN ⊢; omega)]
    rw [show i + 1 + m = i + (m + 1) by omega, show rj + 1 + m = rj + (m + 1) by omega]

/-- The entry at index `a` after the dispatch loop is the entry that the
dispatch of index `a` leaves, when the jobs are Ready and `a` is within the
budget. -/
theorem loop_done_entry (env : Env) (NCPU TSLICE : Int) (s : State) (a : Nat)
    (hready : ∀ i, i < s.process_count → (s.process_table i).status = 1)
    (ha : a < s.process_count) (hN : (a : Int) < NCPU) :
    (loop_reaches env NCPU TSLICE s a).process_table a = (sort_by_priority s).process_table a ∧
    ((sort_by_priority s).process_table a).status = 1 ∧
    (loop_done env NCPU TSLICE s).process_table a
      = (dispatch env TSLICE (loop_reaches env NCPU TSLICE s a) a).process_table a := by
  obtain ⟨-, hperm, -, -, -⟩ := sort_by_priority_spec s
  have hready1 : ∀ b, b < s.process_count → ((sort_by_priority s).process_table b).status = 1 := by
    intro b hb
    have hmem : (sort_by_priority s).process_table b ∈ live s :=
      hperm.subset ((mem_seg _ _ _ _).mpr ⟨b, Nat.zero_le b, by simpa using hb, rfl⟩)
    obtain ⟨c, -, hc, e⟩ := (mem_seg _ _ _ _).mp hmem
    rw [← e]
    exact hready c (by omega)
  have hpre : (loop_reaches env NCPU TSLICE s a).process_table a
      = (sort_by_priority s).process_table a :=
    (dispatch_loop_frame env NCPU TSLICE a 0 0 (sort_by_priority s)).2.2.1 a (Or.inr (by omega))
  refine ⟨hpre, hready1 a ha, ?_⟩
  obtain ⟨k, hk⟩ : ∃ k, s.process_count = a + (k + 1) := ⟨s.process_count - a - 1, by omega⟩
  unfold loop_done
  rw [hk, dispatch_loop_split env NCPU TSLICE a (k + 1) 0 0 (sort_by_priority s)
    (fun b _ hb => hready1 b (by omega)) (by simpa using le_of_lt hN)]
  simp only [Nat.zero_add]
  have hst : ((dispatch_loop env NCPU TSLICE a 0 0 (sort_by_priority s)).process_table a).status
      = 1 := by
    have := hpre
    unfold loop_reaches at this
    rw [this]
    exact hready1 a ha
  simp only [dispatch_loop, if_pos hN, if_pos hst]
  rw [(dispatch_loop_frame env NCPU TSLICE k (a + 1) (a + 1) _).2.2.1 a (Or.inl (by omega))]
  rfl

/-- C11, amended. The results of the `SIGCONT` and `SIGSTOP` calls are never
looked at: with any other results of `kill` a dispatch, a scheduler iteration
and a whole run are the same, so a failed signal does not stop the scheduler.
What happens to a dispatched job is decided by `waitpid` alone.  For one
dispatch: if `waitpid` does not report the child terminated, the entry and the
history are unchanged; if it does, the entry is marked Terminated and, with
allocation succeeding, one record is appended whose status is 0 when
`WIFEXITED` holds and 1 otherwise.  For one iteration started with all jobs
Ready and an entry `a` of the sorted table within the budget `NCPU`: the entry
is marked Terminated by the dispatch loop exactly when `waitpid`, called when
the loop reaches it, reports its child terminated, and is otherwise left as it
was and is still in the table, Ready, after the iteration; the jobs in the
table after the iteration are exactly the entries not marked Terminated, in
order; and, with allocation succeeding, the records appended are exactly those
of the entries marked Terminated. -/
theorem signal_result_ignored (env : Env) (kill2 : List Event → Int → Signal → Int)
    (NCPU TSLICE : Int) (s : State) (i a : Nat) :
    dispatch { env with kill := kill2 } TSLICE s i = dispatch env TSLICE s i ∧
    scheduler_iteration { env with kill := kill2 } NCPU TSLICE s
      = scheduler_iteration env NCPU TSLICE s ∧
    (∀ fuel, scheduler { env with kill := kill2 } NCPU TSLICE fuel s
      = scheduler env NCPU TSLICE fuel s) ∧
    (env.waitpid (reap_log TSLICE s i) (s.process_table i).pid = none →
      (dispatch env TSLICE s i).process_table = s.process_table ∧
      (dispatch env TSLICE s i).history = s.history) ∧
    (∀ status, env.waitpid (reap_log TSLICE s i) (s.process_table i).pid = some status →
      ((dispatch env TSLICE s i).process_table i).status = 2 ∧
      ((∀ log, env.malloc log = true) →
        ∃ node : hnode, (dispatch env TSLICE s i).history = s.history ++ [node] ∧
          record_matches node (s.process_table i) ∧
          node.status = (if WIFEXITED status then 0 else 1))) ∧
    ((∀ j, j < s.process_count → (s.process_table j).status = 1) →
      a < s.process_count → (a : Int) < NCPU →
      (env.waitpid (reap_log TSLICE (loop_reaches env NCPU TSLICE s a) a)
          ((sort_by_priority s).process_table a).pid = none →
        (loop_done env NCPU TSLICE s).process_table a = (sort_by_priority s).process_table a ∧
        ((sort_by_priority s).process_table a).status = 1 ∧
        (sort_by_priority s).process_table a ∈ live (scheduler_iteration env NCPU TSLICE s)) ∧
      (((loop_done env NCPU TSLICE s).process_table a).status = 2 ↔
        (env.waitpid (reap_log TSLICE (loop_reaches env NCPU TSLICE s a) a)
          ((sort_by_priority s).process_table a).pid).isSome = true) ∧
      live (scheduler_iteration env NCPU TSLICE s)
        = (live (loop_done env NCPU TSLICE s)).filter kept ∧
      (scheduler_iteration env NCPU TSLICE s).process_count
        = ((live (loop_done env NCPU TSLICE s)).filter kept).length ∧
      ((∀ log, env.malloc log = true) →
        ∃ new : List hnode,
          (scheduler_iteration env NCPU TSLICE s).history = s.history ++ new ∧
          new.map record_key
            = ((live (loop_done env NCPU TSLICE s)).filter terminated).map job_key)) := by
  refine ⟨rfl, scheduler_iteration_kill_irrelevant env kill2 NCPU TSLICE s, fun fuel => ?_,
    fun hw => dispatch_of_none env TSLICE s i hw, fun status hw => ?_, fun hready ha hN => ?_⟩
  · induction fuel generalizing s with
    | zero => rfl
    | succ fuel ih =>
      simp only [scheduler, scheduler_iteration_kill_irrelevant]
      split_ifs
      · exact ih _
      · rfl
  · obtain ⟨node, new, t, e1, e2, e3, e4, -, e6⟩ := dispatch_of_some env TSLICE s i status hw
    refine ⟨by rw [e1]; simp, fun hm => ⟨node, ?_, e3, e4⟩⟩
    rw [e2, e6 hm]
  · obtain ⟨hpre, hst, hentry⟩ := loop_done_entry env NCPU TSLICE s a hready ha hN
    obtain ⟨r1, r2, -, -⟩ := remove_terminated_processes_spec (loop_done env NCPU TSLICE s)
    have hiter : scheduler_iteration env NCPU TSLICE s
        = remove_terminated_processes (loop_done env NCPU TSLICE s) := rfl
    have hcount : (loop_done env NCPU TSLICE s).process_count = s.process_count :=
      (dispatch_loop_frame env NCPU TSLICE s.process_count 0 0 (sort_by_priority s)).1
    rw [← hpre]
    refine ⟨fun hw => ?_, ?_, by rw [hiter, r1], by rw [hiter, r2], fun hm => ?_⟩
    · obtain ⟨e1, -⟩ := dispatch_of_none env TSLICE _ a hw
      have hsame : (loop_done env NCPU TSLICE s).process_table a
          = (loop_reaches env NCPU TSLICE s a).process_table a := by
        rw [hentry, e1]
      have hst' : ((loop_reaches env NCPU TSLICE s a).process_table a).status = 1 := by
        rw [hpre]; exact hst
      refine ⟨hsame, hst', ?_⟩
      rw [hiter, r1, List.mem_filter, kept_iff, hst']
      refine ⟨?_, by decide⟩
      rw [← hsame]
      exact (mem_seg _ _ _ _).mpr ⟨a, Nat.zero_le a, by rw [hcount]; omega, rfl⟩
    · rw [hentry]
      rcases hw : env.waitpid (reap_log TSLICE (loop_reaches env NCPU TSLICE s a) a)
          ((loop_reaches env NCPU TSLICE s a).process_table a).pid with _ | status
      · obtain ⟨e1, -⟩ := dispatch_of_none env TSLICE _ a hw
        rw [e1, hpre, hst]
        simp
      · obtain ⟨_, _, t, e1, -⟩ := dispatch_of_some env TSLICE _ a status hw
        rw [e1]
        simp
    · obtain ⟨-, -, new, -, -, g3, -, -, g6⟩ := scheduler_iteration_trace env NCPU TSLICE s
      refine ⟨new, g3, ?_⟩
      exact g6 hm (fun j hj => by rw [hready j hj]; decide)

/-- Witness for C11 amended: the run of scenario S1 is the same whether every
`kill` call succeeds or fails; and the single job of `state_one_job`, with
every `kill` failing and `waitpid` reporting nothing, is still in the table,
Ready, after the iteration. -/
theorem signal_result_ignored_witness :
    ((∀ j, j < state_one_job.process_count → (state_one_job.process_table j).status = 1) ∧
     0 < state_one_job.process_count ∧ ((0 : Nat) : Int) < 1 ∧
     env_kill_fails.waitpid (reap_log 100 (loop_reaches env_kill_fails 1 100 state_one_job 0) 0)
       ((sort_by_priority state_one_job).process_table 0).pid = none) ∧
    scheduler { env_ok with kill := fun _ _ _ => -1 } 1 100 2 state_two_jobs
      = scheduler env_ok 1 100 2 state_two_jobs ∧
    ((loop_done env_kill_fails 1 100 state_one_job).process_table 0
        = (sort_by_priority state_one_job).process_table 0 ∧
     ((sort_by_priority state_one_job).process_table 0).status = 1 ∧
     (sort_by_priority state_one_job).process_table 0
        ∈ live (scheduler_iteration env_kill_fails 1 100 state_one_job)) :=
  ⟨⟨by decide, by decide, by decide, rfl⟩,
   (signal_result_ignored env_ok (fun _ _ _ => -1) 1 100 state_two_jobs 0 0).2.2.1 2,
   ((signal_result_ignored env_kill_fails (fun _ _ _ => -1) 1 100 state_one_job 0 0).2.2.2.2.2
      (by decide) (by decide) (by decide)).1 rfl⟩

end Sched
